import Mathlib

/-!
Verification development for the `shalev` document-composition tool.

The definitions below are a shallow embedding of
`src/shalev/compose_actions/compose.py`.  The filesystem is modelled as an
association list from absolute path to the list of lines that Python's
line iteration would yield for that file (each line keeps its trailing
newline, except possibly the last line of a file).  The mutable
`processed_files` set of the Python code is modelled by explicit state
passing of a `List String` (membership, cons on entry, `List.erase` on the
final `discard`).  Python exceptions are modelled by `Except` results that
carry the chain state at the moment the exception propagates out of the
call, which is exactly the state the mutated set is left in.
-/

namespace Shalev

/-- Python `str.isspace` characters relevant to `str.rstrip()` /
`str.strip()` with no arguments. -/
def pyIsSpace (c : Char) : Bool :=
  c == ' ' || c == '\t' || c == '\n' || c == '\r' ||
  c == Char.ofNat 11 || c == Char.ofNat 12

/-- `str.rstrip()` on a list of characters: drop trailing whitespace. -/
def rstripL (cs : List Char) : List Char :=
  (cs.reverse.dropWhile pyIsSpace).reverse

/-- `str.strip()` on a list of characters: drop whitespace on both ends. -/
def stripBothL (cs : List Char) : List Char :=
  (rstripL cs).dropWhile pyIsSpace

/-- `line.rstrip()` as used in `process_file`. -/
def rstrip (s : String) : String := String.mk (rstripL s.data)

/-- Try to remove the literal `lit` from the front of `cs`; on success
return the remainder. -/
def stripLit : List Char → List Char → Option (List Char)
  | [], cs => some cs
  | _ :: _, [] => none
  | l :: ls, c :: cs => if c = l then stripLit ls cs else none

/-- The characters of the directive opener `!!!>include(`. -/
def includeOpen : List Char := "!!!>include(".data

/-- The line classifier of `process_file`: a line whose `rstrip()` starts
with `!!!>include(` and ends with `)` is an include directive, and the
reference is the text between them, `strip()`ped.  Mirrors
`stripped.startswith('!!!>include(') and stripped.endswith(')')` followed
by `stripped[len('!!!>include('):-1].strip()`. -/
def parseDirectiveL (cs : List Char) : Option (List Char) :=
  let s := rstripL cs
  match s.getLast? with
  | some ')' =>
    match stripLit includeOpen s with
    | some mid => some (stripBothL mid.dropLast)
    | none => none
  | _ => none

/-- String-level wrapper of `parseDirectiveL`. -/
def parseDirective (line : String) : Option String :=
  (parseDirectiveL line.data).map String.mk

/-- `os.path.basename` restricted to what the code needs: the suffix of
the path after the last `/`. -/
def basenameL (cs : List Char) : List Char :=
  (cs.reverse.takeWhile (fun c => c ≠ '/')).reverse

/-- `os.path.join(a, b)` for two POSIX path segments. -/
def pjoin (a b : String) : String :=
  if b.data.head? = some '/' then b
  else if a.data = [] ∨ a.data.getLast? = some '/' then a ++ b
  else a ++ "/" ++ b

/-- The value of a digit string, as Python `int()` computes it on a
`\d+` match group. -/
def digitsToNat (ds : List Char) : Nat :=
  ds.foldl (fun a c => 10 * a + (c.toNat - 48)) 0

/-- Errors that abort a composition, mirroring the Python exceptions:
`circular` is the `ValueError` of the cycle guard, `notFound` the
`FileNotFoundError` of `resolve_include`, `readFail` the `OSError` of
`open()` on a missing file, and `fuelOut` stands for exhaustion of the
recursion allowance (Python's `RecursionError`). -/
inductive CompError
  | circular (path : String)
  | notFound (ref : String)
  | readFail (path : String)
  | fuelOut
  deriving DecidableEq, Repr

/-- Result of one `process_file` call: the outcome together with the
state the `processed_files` set is left in. -/
abbrev PRes := Except CompError String × List String

section Composer

variable (fs : List (String × List String)) (root : String)
variable (idx : Option (List (String × String)))

/-- Reading a file: the modelled filesystem lookup. -/
def readFile (p : String) : Option (List String) :=
  List.lookup p fs

/-- `resolve_include(include_ref, components_folder, file_index)`:
references containing `/` are joined to the components root directly;
bare references are looked up in the index when one is supplied, and
joined to the root otherwise. -/
def resolveInclude (ref : String) : Except CompError String :=
  if '/' ∈ ref.data then .ok (pjoin root ref)
  else
    match idx with
    | some ix =>
      match List.lookup ref ix with
      | some p => .ok p
      | none => .error (.notFound ref)
    | none => .ok (pjoin root ref)

/-- The line loop of `process_file`, parametrised by the recursive call
`go` used to expand an include directive.  Non-directive lines pass
through unchanged; a directive line is replaced by the recursive
expansion of the resolved file; any error propagates immediately,
carrying the chain state at that moment. -/
def processLines (go : String → List String → PRes) :
    List String → List String → PRes
  | [], chain => (.ok "", chain)
  | line :: rest, chain =>
    match parseDirective line with
    | none =>
      let r := processLines go rest chain
      (r.1.map (fun t => line ++ t), r.2)
    | some ref =>
      match resolveInclude root idx ref with
      | .error e => (.error e, chain)
      | .ok path =>
        let r := go path chain
        match r.1 with
        | .error e => (.error e, r.2)
        | .ok t =>
          let r2 := processLines go rest r.2
          (r2.1.map (fun t2 => t ++ t2), r2.2)

/-- `process_file(file_path, components_folder, processed_files,
file_index)`.  The extra `fuel` argument bounds the include-nesting
depth (Python bounds it by the interpreter recursion limit).  The chain
check, the `add` on entry, the per-line expansion and the final
`discard` mirror the source line by line; note that the `discard` is
executed only on the successful path, exactly as in the source, where an
exception propagates before reaching it. -/
def processFile : Nat → String → List String → PRes
  | 0, _, chain => (.error .fuelOut, chain)
  | fuel + 1, p, chain =>
    if p ∈ chain then (.error (.circular p), chain)
    else
      match readFile fs p with
      | none => (.error (.readFail p), p :: chain)
      | some lines =>
        let r := processLines root idx (processFile fuel) lines (p :: chain)
        match r.1 with
        | .ok t => (.ok t, r.2.erase p)
        | .error e => (.error e, r.2)

/-- The line loop of `process_file_with_target`: like `processLines`, but
the sentinel line `!!!>include_target` is replaced by the target body
(with a trailing newline enforced if missing) and `!!!>target_preamble`
by the numbering preamble when it is non-empty.  The sentinel checks
come before the include-directive check, as in the source; include
directives recurse through plain `process_file`. -/
def walkTargetLines (fuel : Nat) (targetContent targetPreamble : String) :
    List String → List String → PRes
  | [], chain => (.ok "", chain)
  | line :: rest, chain =>
    if rstrip line = "!!!>include_target" then
      let r := walkTargetLines fuel targetContent targetPreamble rest chain
      (r.1.map (fun t =>
        targetContent ++ (if targetContent.data.getLast? = some '\n' then "" else "\n") ++ t), r.2)
    else if rstrip line = "!!!>target_preamble" then
      let r := walkTargetLines fuel targetContent targetPreamble rest chain
      (r.1.map (fun t =>
        (if targetPreamble = "" then ""
         else targetPreamble ++
           (if targetPreamble.data.getLast? = some '\n' then "" else "\n")) ++ t), r.2)
    else
      match parseDirective line with
      | none =>
        let r := walkTargetLines fuel targetContent targetPreamble rest chain
        (r.1.map (fun t => line ++ t), r.2)
      | some ref =>
        match resolveInclude root idx ref with
        | .error e => (.error e, chain)
        | .ok path =>
          let r := processFile fs root idx fuel path chain
          match r.1 with
          | .error e => (.error e, r.2)
          | .ok t =>
            let r2 := walkTargetLines fuel targetContent targetPreamble rest r.2
            (r2.1.map (fun t2 => t ++ t2), r2.2)

/-- `process_file_with_target(file_path, components_folder,
target_content, processed_files, file_index, target_preamble)`: the
wrapper-level composer.  Structure identical to `processFile` except for
the sentinel handling inside the line loop. -/
def processFileWithTarget (fuel : Nat) (p : String)
    (targetContent targetPreamble : String) (chain : List String) : PRes :=
  if p ∈ chain then (.error (.circular p), chain)
  else
    match readFile fs p with
    | none => (.error (.readFail p), p :: chain)
    | some lines =>
      let r := walkTargetLines fs root idx fuel targetContent targetPreamble
        lines (p :: chain)
      match r.1 with
      | .ok t => (.ok t, r.2.erase p)
      | .error e => (.error e, r.2)

end Composer

/-- Error raised by `build_file_index`: the `ValueError` whose message
names the filename and both offending full paths (the path already in
the index first, the newly walked path second). -/
inductive IndexError
  | duplicateName (fname existing newPath : String)
  deriving DecidableEq, Repr

/-- The `(fname, full_path)` pairs produced, in walk order, by the two
nested loops of `build_file_index` over `os.walk(components_folder)`:
the walk is a list of `(dirpath, filenames)` entries and each filename
is joined to its directory. -/
def walkPairs (walk : List (String × List String)) : List (String × String) :=
  walk.flatMap (fun e => e.2.map (fun f => (f, pjoin e.1 f)))

/-- The loop body of `build_file_index`: fold the walked pairs into the
index, failing on the first filename already present. -/
def buildIndexAux : List (String × String) → List (String × String) →
    Except IndexError (List (String × String))
  | [], index => .ok index
  | (f, path) :: rest, index =>
    match List.lookup f index with
    | some existing => .error (.duplicateName f existing path)
    | none => buildIndexAux rest (index ++ [(f, path)])

/-- `build_file_index(components_folder)`, as a function of the walk of
the components folder.  A nonexistent root makes `os.walk` yield
nothing, i.e. `walk = []`. -/
def buildFileIndex (walk : List (String × List String)) :
    Except IndexError (List (String × String)) :=
  buildIndexAux (walkPairs walk) []

/-- `re.match(r'chap(\d+)', target_name)`: the name must start with
`chap` followed by at least one digit; the group is the maximal digit
run after `chap`. -/
def chapMatchL (cs : List Char) : Option Nat :=
  match stripLit "chap".data cs with
  | none => none
  | some rest =>
    let ds := rest.takeWhile Char.isDigit
    if ds = [] then none else some (digitsToNat ds)

/-- `re.match(r'^(\d+)_', basename)`: the basename must start with at
least one digit directly followed by `_`. -/
def numPrefixMatchL (cs : List Char) : Option Nat :=
  let ds := cs.takeWhile Char.isDigit
  if ds = [] then none
  else if (cs.drop ds.length).head? = some '_' then some (digitsToNat ds)
  else none

/-- `extract_chapter_number(target_name, target_component)`: rule 1 is
the `chap<digits>` match on the target name; rule 2 the leading
`<digits>_` match on the basename of the referenced component; else no
number. -/
def extractChapterNumber (targetName targetComponent : String) : Option Nat :=
  match chapMatchL targetName.data with
  | some n => some n
  | none => numPrefixMatchL (basenameL targetComponent.data)

/-- The closing part `\}\{(\d+)\}` of the aux-file regex, tried at one
position: the text must continue `}{<digits>}`. -/
def auxClose (cs : List Char) : Option Nat :=
  match cs with
  | '}' :: '{' :: rest =>
    let ds := rest.takeWhile Char.isDigit
    if ds = [] then none
    else if (rest.drop ds.length).head? = some '}' then some (digitsToNat ds)
    else none
  | _ => none

/-- The lazy `.*?` part of the aux-file regex: scan forward one character
at a time (never across a newline, which `.` does not match) until the
closing `}{<digits>}` succeeds. -/
def auxLazy : List Char → Option Nat
  | [] => auxClose []
  | c :: rest =>
    match auxClose (c :: rest) with
    | some v => some v
    | none => if c = '\n' then none else auxLazy rest

/-- Try the full aux-file pattern
`\\contentsline\s*\{chapter\}\{\\numberline\s*\{(\d+)\}.*?\}\{(\d+)\}`
anchored at the current position. -/
def auxMatchAt (cs : List Char) : Option (Nat × Nat) :=
  match stripLit "\\contentsline".data cs with
  | none => none
  | some cs1 =>
    match stripLit "\x7bchapter\x7d\x7b\\numberline".data (cs1.dropWhile pyIsSpace) with
    | none => none
    | some cs2 =>
      match stripLit "\x7b".data (cs2.dropWhile pyIsSpace) with
      | none => none
      | some cs3 =>
        let ds := cs3.takeWhile Char.isDigit
        if ds = [] then none
        else
          match (cs3.drop ds.length) with
          | '}' :: cs4 =>
            match auxLazy cs4 with
            | some page => some (digitsToNat ds, page)
            | none => none
          | _ => none

/-- `pattern.search(line)` for the aux-file pattern: try the match at
every position, left to right. -/
def auxSearchL : List Char → Option (Nat × Nat)
  | [] => auxMatchAt []
  | c :: rest =>
    match auxMatchAt (c :: rest) with
    | some r => some r
    | none => auxSearchL rest

/-- String-level wrapper of `auxSearchL`: the chapter/page pair the
regex search extracts from one aux-file line, if any. -/
def auxLineMatch (line : String) : Option (Nat × Nat) :=
  auxSearchL line.data

/-- Python `dict` assignment `d[k] = v` on an insertion-ordered
association list: overwrite in place when the key is present, append
otherwise. -/
def dictInsert (k : Nat) (v : Nat) (d : List (Nat × Nat)) : List (Nat × Nat) :=
  if (List.lookup k d).isSome then
    d.map (fun e => if e.1 = k then (k, v) else e)
  else d ++ [(k, v)]

/-- The loop body of `extract_chapter_pages`: a matching line assigns
chapter ↦ page into the dict, any other line leaves it unchanged. -/
def pageStep (d : List (Nat × Nat)) (line : String) : List (Nat × Nat) :=
  match auxLineMatch line with
  | some m => dictInsert m.1 m.2 d
  | none => d

/-- `extract_chapter_pages(build_folder)`: `none` models an absent
`composed_project.aux` (return `{}`), `some lines` its contents; each
line matching the contentsline pattern assigns chapter ↦ page into the
dict, so a later occurrence of the same chapter overwrites an earlier
one. -/
def extractChapterPages (auxFile : Option (List String)) : List (Nat × Nat) :=
  match auxFile with
  | none => []
  | some lines => lines.foldl pageStep []

/-- The numbering-preamble construction in `compose_target_action`
(lines 237-245): when a chapter number is derivable, a
`\setcounter{chapter}{N-1}` line, plus a `\setcounter{page}{...}` line
when the chapter-page map has an entry for `N`; the lines are joined
with newlines and a final newline is appended.  When no chapter number
is derivable the preamble stays the empty string. -/
def buildTargetPreamble (targetName targetComponent : String)
    (chapterPages : List (Nat × Nat)) : String :=
  match extractChapterNumber targetName targetComponent with
  | none => ""
  | some n =>
    let l1 := "\\setcounter\x7bchapter\x7d\x7b" ++ toString ((n : Int) - 1) ++ "\x7d"
    let ls :=
      match List.lookup n chapterPages with
      | some page => [l1, "\\setcounter\x7bpage\x7d\x7b" ++ toString page ++ "\x7d"]
      | none => [l1]
    String.intercalate "\n" ls ++ "\n"

/-- The outcome-reporting logic of the build driver (`compose_action`
lines 95-108 and `compose_target_action` lines 278-290): given whether
the PDF artifact exists and the compiler exit status, the message
printed and the success value returned. -/
def composeOutcome (pdfProduced : Bool) (returncode : Int) : String × Bool :=
  (if pdfProduced ∧ returncode = 0 then "Compose successful."
   else if pdfProduced then
     "Compose successful (with warnings). Run with --show-log to see details."
   else "Compose failed. Run with --show-log to see full output.",
   pdfProduced)

/-- Concatenation of a list of lines, the reference value of composing a
file whose lines are passed through unchanged. -/
def joinL (ls : List String) : String :=
  ls.foldr (fun l acc => l ++ acc) ""

/-- All lines of `ls` are ordinary text: none parses as an include
directive. -/
def PlainLines (ls : List String) : Prop :=
  ∀ l ∈ ls, parseDirective l = none

instance (ls : List String) : Decidable (PlainLines ls) :=
  inferInstanceAs (Decidable (∀ l ∈ ls, parseDirective l = none))

/-- All lines of `ls` are ordinary wrapper text: none is a sentinel line
and none parses as an include directive. -/
def PlainWrapperLines (ls : List String) : Prop :=
  ∀ l ∈ ls, rstrip l ≠ "!!!>include_target" ∧ rstrip l ≠ "!!!>target_preamble" ∧
    parseDirective l = none

instance (ls : List String) : Decidable (PlainWrapperLines ls) :=
  inferInstanceAs (Decidable (∀ l ∈ ls, _ ∧ _ ∧ _))

/-- `HitsCircular fs root idx fuel chain p r` says that expanding `p`
depth-first with the inclusion chain `chain` runs, along one expansion
branch, into a file `r` that is already open on that branch: either `p`
itself is already in the chain, or `p` reads fine, some prefix of its
lines expands successfully (leaving the chain as it found it), and the
next include directive resolves to a file `q` whose expansion (with `p`
now on the chain) hits `r`.  This is the claim's "some component
transitively includes a component already open on the same depth-first
expansion branch", stated relative to the source's own depth-first
order. -/
inductive HitsCircular (fs : List (String × List String)) (root : String)
    (idx : Option (List (String × String))) :
    Nat → List String → String → String → Prop
  | hit (fuel : Nat) (chain : List String) (p : String) :
      p ∈ chain → HitsCircular fs root idx (fuel + 1) chain p p
  | step (fuel : Nat) (chain : List String) (p : String) (pre : List String)
      (line : String) (rest : List String) (ref q r t : String) :
      p ∉ chain →
      readFile fs p = some (pre ++ line :: rest) →
      processLines root idx (processFile fs root idx fuel) pre (p :: chain) =
        (.ok t, p :: chain) →
      parseDirective line = some ref →
      resolveInclude root idx ref = .ok q →
      HitsCircular fs root idx fuel (p :: chain) q r →
      HitsCircular fs root idx (fuel + 1) chain p r

/-- Decidable equality of composition outcomes, for concrete witnesses. -/
instance : DecidableEq (Except CompError String) :=
  fun a b =>
    match a, b with
    | .ok x, .ok y =>
      if h : x = y then isTrue (by rw [h]) else isFalse (fun hh => by cases hh; exact h rfl)
    | .error x, .error y =>
      if h : x = y then isTrue (by rw [h]) else isFalse (fun hh => by cases hh; exact h rfl)
    | .ok _, .error _ => isFalse (fun hh => by cases hh)
    | .error _, .ok _ => isFalse (fun hh => by cases hh)

/-! ### String plumbing -/

theorem sEmpty_append (s : String) : "" ++ s = s := by
  cases s
  rfl

theorem sAppend_empty (s : String) : s ++ "" = s := by
  cases s with
  | mk d =>
    show String.mk (d ++ []) = String.mk d
    rw [List.append_nil]

theorem sAppend_assoc (a b c : String) : a ++ b ++ c = a ++ (b ++ c) := by
  cases a with
  | mk da =>
    cases b with
    | mk db =>
      cases c with
      | mk dc =>
        show String.mk (da ++ db ++ dc) = String.mk (da ++ (db ++ dc))
        rw [List.append_assoc]

/-! ### Step lemmas for the composer -/

section ComposerLemmas

variable (fs : List (String × List String)) (root : String)
variable (idx : Option (List (String × String)))

theorem processLines_nil (go : String → List String → PRes) (c : List String) :
    processLines root idx go [] c = (.ok "", c) := rfl

theorem processLines_cons_plain (go : String → List String → PRes)
    (line : String) (rest : List String) (c : List String)
    (h : parseDirective line = none) :
    processLines root idx go (line :: rest) c =
      ((processLines root idx go rest c).1.map (fun t => line ++ t),
       (processLines root idx go rest c).2) := by
  simp [processLines, h]

theorem processLines_cons_resolveErr (go : String → List String → PRes)
    (line ref : String) (rest : List String) (c : List String) (e : CompError)
    (h : parseDirective line = some ref)
    (h2 : resolveInclude root idx ref = .error e) :
    processLines root idx go (line :: rest) c = (.error e, c) := by
  simp [processLines, h, h2]

theorem processLines_cons_goErr (go : String → List String → PRes)
    (line ref path : String) (rest : List String) (c c' : List String)
    (e : CompError)
    (h : parseDirective line = some ref)
    (h2 : resolveInclude root idx ref = .ok path)
    (h3 : go path c = (.error e, c')) :
    processLines root idx go (line :: rest) c = (.error e, c') := by
  simp [processLines, h, h2, h3]

theorem processLines_cons_goOk (go : String → List String → PRes)
    (line ref path t : String) (rest : List String) (c c' : List String)
    (h : parseDirective line = some ref)
    (h2 : resolveInclude root idx ref = .ok path)
    (h3 : go path c = (.ok t, c')) :
    processLines root idx go (line :: rest) c =
      ((processLines root idx go rest c').1.map (fun t2 => t ++ t2),
       (processLines root idx go rest c').2) := by
  simp [processLines, h, h2, h3]

theorem processFile_zero (p : String) (c : List String) :
    processFile fs root idx 0 p c = (.error .fuelOut, c) := rfl

theorem processFile_mem (fuel : Nat) (p : String) (c : List String)
    (h : p ∈ c) :
    processFile fs root idx (fuel + 1) p c = (.error (.circular p), c) := by
  simp [processFile, h]

theorem processFile_noRead (fuel : Nat) (p : String) (c : List String)
    (h : p ∉ c) (h2 : readFile fs p = none) :
    processFile fs root idx (fuel + 1) p c = (.error (.readFail p), p :: c) := by
  simp [processFile, h, h2]

theorem processFile_read_ok (fuel : Nat) (p t : String)
    (c c' : List String) (lines : List String)
    (h : p ∉ c) (h2 : readFile fs p = some lines)
    (h3 : processLines root idx (processFile fs root idx fuel) lines (p :: c) =
      (.ok t, c')) :
    processFile fs root idx (fuel + 1) p c = (.ok t, c'.erase p) := by
  simp [processFile, h, h2, h3]

theorem processFile_read_err (fuel : Nat) (p : String)
    (c c' : List String) (lines : List String) (e : CompError)
    (h : p ∉ c) (h2 : readFile fs p = some lines)
    (h3 : processLines root idx (processFile fs root idx fuel) lines (p :: c) =
      (.error e, c')) :
    processFile fs root idx (fuel + 1) p c = (.error e, c') := by
  simp [processFile, h, h2, h3]

theorem exceptMap_ok {α β ε : Type} (f : α → β) (a : α) :
    (Except.ok a : Except ε α).map f = .ok (f a) := rfl

theorem exceptMap_error {α β ε : Type} (f : α → β) (e : ε) :
    (Except.error e : Except ε α).map f = .error e := rfl

/-- A successful `process_file` call leaves the chain exactly as it found
it (line-loop half, parametrised over the recursive call). -/
theorem processLines_ok_chain (go : String → List String → PRes)
    (hgo : ∀ q c t c', go q c = (.ok t, c') → c' = c) :
    ∀ (lines c : List String) (t : String) (c' : List String),
      processLines root idx go lines c = (.ok t, c') → c' = c := by
  intro lines
  induction lines with
  | nil =>
    intro c t c' h
    rw [processLines_nil] at h
    exact ((Prod.mk.injEq _ _ _ _).mp h).2.symm
  | cons line rest ih =>
    intro c t c' h
    cases hd : parseDirective line with
    | none =>
      rw [processLines_cons_plain root idx go line rest c hd] at h
      cases hr : processLines root idx go rest c with
      | mk res1 c1 =>
        rw [hr] at h
        cases res1 with
        | error e => rw [exceptMap_error] at h; exact absurd ((Prod.mk.injEq _ _ _ _).mp h).1 (by simp)
        | ok t0 =>
          rw [exceptMap_ok] at h
          have hc : c1 = c' := ((Prod.mk.injEq _ _ _ _).mp h).2
          exact hc ▸ ih c t0 c1 hr
    | some ref =>
      cases hres : resolveInclude root idx ref with
      | error e =>
        rw [processLines_cons_resolveErr root idx go line ref rest c e hd hres] at h
        exact absurd ((Prod.mk.injEq _ _ _ _).mp h).1 (by simp)
      | ok path =>
        cases hgr : go path c with
        | mk res1 c1 =>
          cases res1 with
          | error e =>
            rw [processLines_cons_goErr root idx go line ref path rest c c1 e hd hres hgr] at h
            exact absurd ((Prod.mk.injEq _ _ _ _).mp h).1 (by simp)
          | ok t1 =>
            rw [processLines_cons_goOk root idx go line ref path t1 rest c c1 hd hres hgr] at h
            have hc1 : c1 = c := hgo path c t1 c1 hgr
            cases hr2 : processLines root idx go rest c1 with
            | mk res2 c2 =>
              rw [hr2] at h
              cases res2 with
              | error e => rw [exceptMap_error] at h; exact absurd ((Prod.mk.injEq _ _ _ _).mp h).1 (by simp)
              | ok t2 =>
                rw [exceptMap_ok] at h
                have hc : c2 = c' := ((Prod.mk.injEq _ _ _ _).mp h).2
                exact hc ▸ ((ih c1 t2 c2 hr2).trans hc1)

/-- A successful `process_file` call leaves the chain exactly as it found
it: the path added on entry is discarded on the way out. -/
theorem processFile_ok_chain :
    ∀ (fuel : Nat) (p : String) (c : List String) (t : String) (c' : List String),
      processFile fs root idx fuel p c = (.ok t, c') → c' = c := by
  intro fuel
  induction fuel with
  | zero =>
    intro p c t c' h
    rw [processFile_zero] at h
    exact absurd ((Prod.mk.injEq _ _ _ _).mp h).1 (by simp)
  | succ fuel ih =>
    intro p c t c' h
    by_cases hp : p ∈ c
    · rw [processFile_mem fs root idx fuel p c hp] at h
      exact absurd ((Prod.mk.injEq _ _ _ _).mp h).1 (by simp)
    · cases hr : readFile fs p with
      | none =>
        rw [processFile_noRead fs root idx fuel p c hp hr] at h
        exact absurd ((Prod.mk.injEq _ _ _ _).mp h).1 (by simp)
      | some lines =>
        cases hl : processLines root idx (processFile fs root idx fuel) lines (p :: c) with
        | mk res1 c1 =>
          cases res1 with
          | error e =>
            rw [processFile_read_err fs root idx fuel p c c1 lines e hp hr hl] at h
            exact absurd ((Prod.mk.injEq _ _ _ _).mp h).1 (by simp)
          | ok t1 =>
            rw [processFile_read_ok fs root idx fuel p t1 c c1 lines hp hr hl] at h
            obtain ⟨h1, h2⟩ := (Prod.mk.injEq _ _ _ _).mp h
            have hc1 : c1 = p :: c := processLines_ok_chain root idx _ ih lines (p :: c) t1 c1 hl
            rw [← h2, hc1, List.erase_cons_head]

/-- The chain never loses a path other than the one a call itself added:
anything in the chain before a (sub)call is still there afterwards,
whatever the outcome (line-loop half). -/
theorem processLines_mem (go : String → List String → PRes)
    (x : String) (hgo : ∀ q c, x ∈ c → x ∈ (go q c).2) :
    ∀ (lines c : List String), x ∈ c → x ∈ (processLines root idx go lines c).2 := by
  intro lines
  induction lines with
  | nil => intro c hx; rw [processLines_nil]; exact hx
  | cons line rest ih =>
    intro c hx
    cases hd : parseDirective line with
    | none =>
      rw [processLines_cons_plain root idx go line rest c hd]
      exact ih c hx
    | some ref =>
      cases hres : resolveInclude root idx ref with
      | error e =>
        rw [processLines_cons_resolveErr root idx go line ref rest c e hd hres]
        exact hx
      | ok path =>
        cases hgr : go path c with
        | mk res1 c1 =>
          have hx1 : x ∈ c1 := by
            have := hgo path c hx
            rw [hgr] at this
            exact this
          cases res1 with
          | error e =>
            rw [processLines_cons_goErr root idx go line ref path rest c c1 e hd hres hgr]
            exact hx1
          | ok t1 =>
            rw [processLines_cons_goOk root idx go line ref path t1 rest c c1 hd hres hgr]
            exact ih c1 hx1

/-- The chain never loses a path other than the one a call itself added
(file level): if `x` is on the chain when `process_file` is called on
some other file, `x` is still on the chain when that call finishes,
successfully or not. -/
theorem processFile_mem_chain :
    ∀ (fuel : Nat) (q : String) (c : List String) (x : String), x ∈ c →
      x ∈ (processFile fs root idx fuel q c).2 := by
  intro fuel
  induction fuel with
  | zero => intro q c x hx; rw [processFile_zero]; exact hx
  | succ fuel ih =>
    intro q c x hx
    by_cases hq : q ∈ c
    · rw [processFile_mem fs root idx fuel q c hq]; exact hx
    · have hxq : x ≠ q := fun hh => hq (hh ▸ hx)
      cases hr : readFile fs q with
      | none =>
        rw [processFile_noRead fs root idx fuel q c hq hr]
        exact List.mem_cons_of_mem q hx
      | some lines =>
        cases hl : processLines root idx (processFile fs root idx fuel) lines (q :: c) with
        | mk res1 c1 =>
          have hx1 : x ∈ c1 := by
            have := processLines_mem root idx _ x (fun q' c' hx' => ih q' c' x hx')
              lines (q :: c) (List.mem_cons_of_mem q hx)
            rw [hl] at this
            exact this
          cases res1 with
          | error e =>
            rw [processFile_read_err fs root idx fuel q c c1 lines e hq hr hl]
            exact hx1
          | ok t1 =>
            rw [processFile_read_ok fs root idx fuel q t1 c c1 lines hq hr hl]
            exact (List.mem_erase_of_ne hxq).mpr hx1

/-- Expanding a run of ordinary (non-directive) lines reproduces them
verbatim and leaves the chain untouched. -/
theorem processLines_plain (go : String → List String → PRes) :
    ∀ (lines : List String), (∀ l ∈ lines, parseDirective l = none) →
      ∀ c, processLines root idx go lines c = (.ok (joinL lines), c) := by
  intro lines
  induction lines with
  | nil => intro _ c; rfl
  | cons line rest ih =>
    intro hpl c
    have hd : parseDirective line = none := hpl line (List.mem_cons_self _ _)
    rw [processLines_cons_plain root idx go line rest c hd,
      ih (fun l hl => hpl l (List.mem_cons_of_mem _ hl)) c, exceptMap_ok]
    rfl

/-- Splitting the line loop at an append, successful first part. -/
theorem processLines_append_ok (go : String → List String → PRes) :
    ∀ (xs ys : List String) (c : List String) (t : String) (c' : List String),
      processLines root idx go xs c = (.ok t, c') →
      processLines root idx go (xs ++ ys) c =
        ((processLines root idx go ys c').1.map (fun t2 => t ++ t2),
         (processLines root idx go ys c').2) := by
  intro xs
  induction xs with
  | nil =>
    intro ys c t c' h
    rw [processLines_nil] at h
    obtain ⟨h1, h2⟩ := (Prod.mk.injEq _ _ _ _).mp h
    cases h1
    cases h2
    rw [List.nil_append]
    cases hy : processLines root idx go ys c with
    | mk res2 c2 =>
      cases res2 with
      | error e => rfl
      | ok t2 => simp [exceptMap_ok, sEmpty_append]
  | cons line rest ih =>
    intro ys c t c' h
    cases hd : parseDirective line with
    | none =>
      rw [processLines_cons_plain root idx go line rest c hd] at h
      cases hr : processLines root idx go rest c with
      | mk res1 c1 =>
        rw [hr] at h
        cases res1 with
        | error e => rw [exceptMap_error] at h; exact absurd ((Prod.mk.injEq _ _ _ _).mp h).1 (by simp)
        | ok t0 =>
          rw [exceptMap_ok] at h
          obtain ⟨h1, h2⟩ := (Prod.mk.injEq _ _ _ _).mp h
          cases h1
          cases h2
          rw [List.cons_append, processLines_cons_plain root idx go line (rest ++ ys) c hd,
            ih ys c t0 c1 hr]
          cases hy : processLines root idx go ys c1 with
          | mk res2 c2 =>
            cases res2 with
            | error e => rfl
            | ok t2 => simp [exceptMap_ok, sAppend_assoc]
    | some ref =>
      cases hres : resolveInclude root idx ref with
      | error e =>
        rw [processLines_cons_resolveErr root idx go line ref rest c e hd hres] at h
        exact absurd ((Prod.mk.injEq _ _ _ _).mp h).1 (by simp)
      | ok path =>
        cases hgr : go path c with
        | mk res1 c1 =>
          cases res1 with
          | error e =>
            rw [processLines_cons_goErr root idx go line ref path rest c c1 e hd hres hgr] at h
            exact absurd ((Prod.mk.injEq _ _ _ _).mp h).1 (by simp)
          | ok t1 =>
            rw [processLines_cons_goOk root idx go line ref path t1 rest c c1 hd hres hgr] at h
            cases hr2 : processLines root idx go rest c1 with
            | mk res2 c2 =>
              rw [hr2] at h
              cases res2 with
              | error e => rw [exceptMap_error] at h; exact absurd ((Prod.mk.injEq _ _ _ _).mp h).1 (by simp)
              | ok t2 =>
                rw [exceptMap_ok] at h
                obtain ⟨h1, h2⟩ := (Prod.mk.injEq _ _ _ _).mp h
                cases h1
                cases h2
                rw [List.cons_append,
                  processLines_cons_goOk root idx go line ref path t1 (rest ++ ys) c c1 hd hres hgr,
                  ih ys c1 t2 c2 hr2]
                cases hy : processLines root idx go ys c2 with
                | mk res3 c3 =>
                  cases res3 with
                  | error e => rfl
                  | ok t3 => simp [exceptMap_ok, sAppend_assoc]

/-- Splitting the line loop at an append, failing first part: the error
and the chain state at the error stand. -/
theorem processLines_append_err (go : String → List String → PRes) :
    ∀ (xs ys : List String) (c : List String) (e : CompError) (c' : List String),
      processLines root idx go xs c = (.error e, c') →
      processLines root idx go (xs ++ ys) c = (.error e, c') := by
  intro xs
  induction xs with
  | nil =>
    intro ys c e c' h
    rw [processLines_nil] at h
    exact absurd ((Prod.mk.injEq _ _ _ _).mp h).1 (by simp)
  | cons line rest ih =>
    intro ys c e c' h
    cases hd : parseDirective line with
    | none =>
      rw [processLines_cons_plain root idx go line rest c hd] at h
      cases hr : processLines root idx go rest c with
      | mk res1 c1 =>
        rw [hr] at h
        cases res1 with
        | ok t0 => rw [exceptMap_ok] at h; exact absurd ((Prod.mk.injEq _ _ _ _).mp h).1 (by simp)
        | error e0 =>
          rw [exceptMap_error] at h
          rw [List.cons_append, processLines_cons_plain root idx go line (rest ++ ys) c hd,
            ih ys c e0 c1 hr, exceptMap_error]
          exact h
    | some ref =>
      cases hres : resolveInclude root idx ref with
      | error e0 =>
        rw [processLines_cons_resolveErr root idx go line ref rest c e0 hd hres] at h
        rw [List.cons_append,
          processLines_cons_resolveErr root idx go line ref (rest ++ ys) c e0 hd hres]
        exact h
      | ok path =>
        cases hgr : go path c with
        | mk res1 c1 =>
          cases res1 with
          | error e0 =>
            rw [processLines_cons_goErr root idx go line ref path rest c c1 e0 hd hres hgr] at h
            rw [List.cons_append,
              processLines_cons_goErr root idx go line ref path (rest ++ ys) c c1 e0 hd hres hgr]
            exact h
          | ok t1 =>
            rw [processLines_cons_goOk root idx go line ref path t1 rest c c1 hd hres hgr] at h
            cases hr2 : processLines root idx go rest c1 with
            | mk res2 c2 =>
              rw [hr2] at h
              cases res2 with
              | ok t2 => rw [exceptMap_ok] at h; exact absurd ((Prod.mk.injEq _ _ _ _).mp h).1 (by simp)
              | error e2 =>
                rw [exceptMap_error] at h
                rw [List.cons_append,
                  processLines_cons_goOk root idx go line ref path t1 (rest ++ ys) c c1 hd hres hgr,
                  ih ys c1 e2 c2 hr2, exceptMap_error]
                exact h

/-- A successful line expansion stays successful, with the same text,
when the chain is replaced by a subset (line-loop half: both chains are
fixed, since successful sub-calls restore them). -/
theorem processLines_shrink (go : String → List String → PRes)
    (d d' : List String)
    (hgo : ∀ q t, (go q d).1 = .ok t → (go q d').1 = .ok t)
    (hres : ∀ q c t c', go q c = (.ok t, c') → c' = c) :
    ∀ (lines : List String) (t : String),
      (processLines root idx go lines d).1 = .ok t →
      (processLines root idx go lines d').1 = .ok t := by
  intro lines
  induction lines with
  | nil => intro t h; rw [processLines_nil] at h ⊢; exact h
  | cons line rest ih =>
    intro t h
    cases hd : parseDirective line with
    | none =>
      rw [processLines_cons_plain root idx go line rest d hd] at h
      rw [processLines_cons_plain root idx go line rest d' hd]
      cases hr : (processLines root idx go rest d) with
      | mk res1 c1 =>
        rw [hr] at h
        cases res1 with
        | error e => exact absurd h (by simp [exceptMap_error])
        | ok t0 =>
          rw [exceptMap_ok] at h
          have h0 : (processLines root idx go rest d).1 = .ok t0 := by rw [hr]
          have := ih t0 h0
          cases hy : processLines root idx go rest d' with
          | mk res2 c2 =>
            rw [hy] at this
            cases res2 with
            | error e => exact absurd this (by simp)
            | ok t2 =>
              have ht2 : t2 = t0 := by injection this
              rw [exceptMap_ok, ht2]
              exact h
    | some ref =>
      cases hresv : resolveInclude root idx ref with
      | error e =>
        rw [processLines_cons_resolveErr root idx go line ref rest d e hd hresv] at h
        exact absurd h (by simp)
      | ok path =>
        cases hgr : go path d with
        | mk res1 c1 =>
          cases res1 with
          | error e =>
            rw [processLines_cons_goErr root idx go line ref path rest d c1 e hd hresv hgr] at h
            exact absurd h (by simp)
          | ok t1 =>
            have hc1 : c1 = d := hres path d t1 c1 hgr
            have hgrd : go path d = (.ok t1, d) := by rw [hgr, hc1]
            rw [processLines_cons_goOk root idx go line ref path t1 rest d d hd hresv hgrd] at h
            have h1' : (go path d').1 = .ok t1 := hgo path t1 (by rw [hgrd])
            cases hgr' : go path d' with
            | mk res1' c1' =>
              rw [hgr'] at h1'
              cases res1' with
              | error e => exact absurd h1' (by simp)
              | ok t1'' =>
                have ht1 : t1'' = t1 := by injection h1'
                have hc1' : c1' = d' := hres path d' t1'' c1' hgr'
                have hgrd' : go path d' = (.ok t1, d') := by rw [hgr', hc1', ht1]
                rw [processLines_cons_goOk root idx go line ref path t1 rest d' d' hd hresv hgrd']
                cases hr2 : processLines root idx go rest d with
                | mk res2 c2 =>
                  rw [hr2] at h
                  cases res2 with
                  | error e => exact absurd h (by simp [exceptMap_error])
                  | ok t2 =>
                    rw [exceptMap_ok] at h
                    have h2' : (processLines root idx go rest d').1 = .ok t2 := ih t2 (by rw [hr2])
                    cases hy : processLines root idx go rest d' with
                    | mk res3 c3 =>
                      rw [hy] at h2'
                      cases res3 with
                      | error e => exact absurd h2' (by simp)
                      | ok t3 =>
                        have ht3 : t3 = t2 := by injection h2'
                        rw [exceptMap_ok, ht3]
                        exact h

/-- A successful `process_file` call stays successful, with the same
composed text, when started from any subset of its chain: only chain
membership can make an expansion fail, so removing paths from the chain
cannot change a successful result. -/
theorem processFile_shrink :
    ∀ (fuel : Nat) (q : String) (c c' : List String),
      (∀ x, x ∈ c' → x ∈ c) →
      ∀ t, (processFile fs root idx fuel q c).1 = .ok t →
        (processFile fs root idx fuel q c').1 = .ok t := by
  intro fuel
  induction fuel with
  | zero =>
    intro q c c' _ t h
    rw [processFile_zero] at h
    exact absurd h (by simp)
  | succ fuel ih =>
    intro q c c' hsub t h
    by_cases hq : q ∈ c
    · rw [processFile_mem fs root idx fuel q c hq] at h
      exact absurd h (by simp)
    · have hq' : q ∉ c' := fun hh => hq (hsub q hh)
      cases hr : readFile fs q with
      | none =>
        rw [processFile_noRead fs root idx fuel q c hq hr] at h
        exact absurd h (by simp)
      | some lines =>
        cases hl : processLines root idx (processFile fs root idx fuel) lines (q :: c) with
        | mk res1 c1 =>
          cases res1 with
          | error e =>
            rw [processFile_read_err fs root idx fuel q c c1 lines e hq hr hl] at h
            exact absurd h (by simp)
          | ok t1 =>
            rw [processFile_read_ok fs root idx fuel q t1 c c1 lines hq hr hl] at h
            have ht1 : t1 = t := by injection h
            subst ht1
            have hsub2 : ∀ x, x ∈ q :: c' → x ∈ q :: c := by
              intro x hx
              rcases List.mem_cons.mp hx with hx | hx
              · exact hx ▸ List.mem_cons_self _ _
              · exact List.mem_cons_of_mem _ (hsub x hx)
            have hl' : (processLines root idx (processFile fs root idx fuel) lines (q :: c')).1 =
                .ok t1 := by
              refine processLines_shrink root idx _ (q :: c) (q :: c')
                (fun q2 t2 h2 => ih q2 (q :: c) (q :: c') hsub2 t2 h2)
                (fun q2 c2 t2 c2' h2 => processFile_ok_chain fs root idx fuel q2 c2 t2 c2' h2)
                lines t1 (by rw [hl])
            cases hl2 : processLines root idx (processFile fs root idx fuel) lines (q :: c') with
            | mk res2 c2 =>
              rw [hl2] at hl'
              cases res2 with
              | error e => exact absurd hl' (by simp)
              | ok t2 =>
                have ht2 : t2 = t1 := by injection hl'
                subst ht2
                rw [processFile_read_ok fs root idx fuel q t2 c' c2 lines hq' hr hl2]

/-- Composing a file with no include directives yields exactly its
lines, concatenated, and restores the chain. -/
theorem processFile_plainFile (fuel : Nat) (P : String) (ls : List String)
    (chain : List String) (hP : P ∉ chain)
    (hread : readFile fs P = some ls) (hpl : PlainLines ls) :
    processFile fs root idx (fuel + 1) P chain = (.ok (joinL ls), chain) := by
  rw [processFile_read_ok fs root idx fuel P (joinL ls) chain (P :: chain) ls hP hread
    (processLines_plain root idx _ ls hpl (P :: chain)), List.erase_cons_head]

/-- Composing a file consisting of plain lines around one include
directive splices the expansion of the resolved file at the directive
position. -/
theorem processFile_singleInclude (fuel : Nat) (P Q dl ref tq : String)
    (pre post : List String) (chain : List String)
    (hP : P ∉ chain)
    (hread : readFile fs P = some (pre ++ dl :: post))
    (hpre : PlainLines pre) (hpost : PlainLines post)
    (hdl : parseDirective dl = some ref)
    (hres : resolveInclude root idx ref = .ok Q)
    (hQ : processFile fs root idx fuel Q (P :: chain) = (.ok tq, P :: chain)) :
    processFile fs root idx (fuel + 1) P chain =
      (.ok (joinL pre ++ (tq ++ joinL post)), chain) := by
  have h2 : processLines root idx (processFile fs root idx fuel) post (P :: chain) =
      (.ok (joinL post), P :: chain) := processLines_plain root idx _ post hpost (P :: chain)
  have h3 : processLines root idx (processFile fs root idx fuel) (dl :: post) (P :: chain) =
      (.ok (tq ++ joinL post), P :: chain) := by
    rw [processLines_cons_goOk root idx _ dl ref Q tq post (P :: chain) (P :: chain) hdl hres hQ,
      h2]
    rfl
  have h4 : processLines root idx (processFile fs root idx fuel) (pre ++ dl :: post)
      (P :: chain) = (.ok (joinL pre ++ (tq ++ joinL post)), P :: chain) := by
    rw [processLines_append_ok root idx _ pre (dl :: post) (P :: chain) (joinL pre) (P :: chain)
      (processLines_plain root idx _ pre hpre (P :: chain)), h3]
    rfl
  rw [processFile_read_ok fs root idx fuel P _ chain (P :: chain) _ hP hread h4,
    List.erase_cons_head]

end ComposerLemmas

/-- C1: for every starting file and every inclusion graph in which some
component transitively includes a component already open on the same
depth-first expansion branch (the `HitsCircular` derivation, which
includes the one-step case of a component that includes itself),
`process_file` raises a circular-include error identifying the offending
path `r`, and the result carries no composed text: the composition is
aborted rather than truncated. -/
theorem claim_C1_circular_include_error
    (fs : List (String × List String)) (root : String)
    (idx : Option (List (String × String)))
    (fuel : Nat) (chain : List String) (p r : String)
    (h : HitsCircular fs root idx fuel chain p r) :
    (processFile fs root idx fuel p chain).1 = .error (.circular r) := by
  induction h with
  | hit fuel chain p hp =>
    rw [processFile_mem fs root idx fuel p chain hp]
  | step fuel chain p pre line rest ref q r t hp hread hpre hline hres hrec ih =>
    cases hq : processFile fs root idx fuel q (p :: chain) with
    | mk resq cq =>
      rw [hq] at ih
      have hresq : resq = .error (.circular r) := ih
      have h3 : processFile fs root idx fuel q (p :: chain) = (.error (.circular r), cq) := by
        rw [hq, hresq]
      have hstep := processLines_cons_goErr root idx (processFile fs root idx fuel)
        line ref q rest (p :: chain) cq (.circular r) hline hres h3
      have happ := processLines_append_ok root idx (processFile fs root idx fuel)
        pre (line :: rest) (p :: chain) t (p :: chain) hpre
      have hwhole : processLines root idx (processFile fs root idx fuel)
          (pre ++ line :: rest) (p :: chain) = (.error (.circular r), cq) := by
        rw [happ, hstep]
        rfl
      rw [processFile_read_err fs root idx fuel p chain cq (pre ++ line :: rest)
        (.circular r) hp hread hwhole]

/-- C1 witness: a component that includes itself; expanding it aborts
with a circular-include error naming that component. -/
theorem claim_C1_circular_include_error_witness :
    (processFile [("a.tex", ["!!!>include(a.tex)"])] "" none 2 "a.tex" []).1 =
      .error (.circular "a.tex") :=
  claim_C1_circular_include_error [("a.tex", ["!!!>include(a.tex)"])] "" none 2 [] "a.tex" "a.tex"
    (HitsCircular.step 1 [] "a.tex" [] "!!!>include(a.tex)" [] "a.tex" "a.tex" "a.tex" ""
      (by decide) (by decide) rfl (by decide) (by decide)
      (HitsCircular.hit 0 ["a.tex"] "a.tex" (by decide)))

/-- C2: for every acyclic inclusion graph in which component `A`
includes both `B` and `C`, and `B` and `C` each include `D`, composing
`A` succeeds (no circular-include error) and the composed output
contains `D`'s content exactly twice, once at each directive's position
in depth-first document order. -/
theorem claim_C2_diamond_reuse
    (fs : List (String × List String)) (root : String)
    (idx : Option (List (String × String))) (fuel : Nat)
    (A B C D : String) (a1 a2 a3 b1 b2 c1 c2 dls : List String)
    (lB lC lD1 lD2 rB rC rD1 rD2 : String)
    (hBA : B ≠ A) (hCA : C ≠ A) (hDA : D ≠ A) (hDB : D ≠ B) (hDC : D ≠ C)
    (hA : readFile fs A = some (a1 ++ lB :: (a2 ++ lC :: a3)))
    (hB : readFile fs B = some (b1 ++ lD1 :: b2))
    (hC : readFile fs C = some (c1 ++ lD2 :: c2))
    (hD : readFile fs D = some dls)
    (hpa1 : PlainLines a1) (hpa2 : PlainLines a2) (hpa3 : PlainLines a3)
    (hpb1 : PlainLines b1) (hpb2 : PlainLines b2)
    (hpc1 : PlainLines c1) (hpc2 : PlainLines c2) (hpd : PlainLines dls)
    (hlB : parseDirective lB = some rB) (hlC : parseDirective lC = some rC)
    (hlD1 : parseDirective lD1 = some rD1) (hlD2 : parseDirective lD2 = some rD2)
    (hrB : resolveInclude root idx rB = .ok B) (hrC : resolveInclude root idx rC = .ok C)
    (hrD1 : resolveInclude root idx rD1 = .ok D) (hrD2 : resolveInclude root idx rD2 = .ok D) :
    processFile fs root idx (fuel + 3) A [] =
      (.ok (joinL a1 ++ (joinL b1 ++ joinL dls ++ joinL b2) ++ joinL a2 ++
        (joinL c1 ++ joinL dls ++ joinL c2) ++ joinL a3), []) := by
  have hDinB : processFile fs root idx (fuel + 1) D (B :: A :: []) =
      (.ok (joinL dls), B :: A :: []) :=
    processFile_plainFile fs root idx fuel D dls (B :: A :: [])
      (by simp [hDB, hDA]) hD hpd
  have hDinC : processFile fs root idx (fuel + 1) D (C :: A :: []) =
      (.ok (joinL dls), C :: A :: []) :=
    processFile_plainFile fs root idx fuel D dls (C :: A :: [])
      (by simp [hDC, hDA]) hD hpd
  have hBrun : processFile fs root idx (fuel + 2) B [A] =
      (.ok (joinL b1 ++ (joinL dls ++ joinL b2)), [A]) :=
    processFile_singleInclude fs root idx (fuel + 1) B D lD1 rD1 (joinL dls) b1 b2 [A]
      (by simp [hBA]) hB hpb1 hpb2 hlD1 hrD1 hDinB
  have hCrun : processFile fs root idx (fuel + 2) C [A] =
      (.ok (joinL c1 ++ (joinL dls ++ joinL c2)), [A]) :=
    processFile_singleInclude fs root idx (fuel + 1) C D lD2 rD2 (joinL dls) c1 c2 [A]
      (by simp [hCA]) hC hpc1 hpc2 hlD2 hrD2 hDinC
  have hL3 : processLines root idx (processFile fs root idx (fuel + 2)) (lC :: a3) [A] =
      (.ok ((joinL c1 ++ (joinL dls ++ joinL c2)) ++ joinL a3), [A]) := by
    rw [processLines_cons_goOk root idx _ lC rC C (joinL c1 ++ (joinL dls ++ joinL c2)) a3
      [A] [A] hlC hrC hCrun, processLines_plain root idx _ a3 hpa3 [A]]
    rfl
  have hL2 : processLines root idx (processFile fs root idx (fuel + 2)) (a2 ++ lC :: a3) [A] =
      (.ok (joinL a2 ++ ((joinL c1 ++ (joinL dls ++ joinL c2)) ++ joinL a3)), [A]) := by
    rw [processLines_append_ok root idx _ a2 (lC :: a3) [A] (joinL a2) [A]
      (processLines_plain root idx _ a2 hpa2 [A]), hL3]
    rfl
  have hL1 : processLines root idx (processFile fs root idx (fuel + 2))
      (lB :: (a2 ++ lC :: a3)) [A] =
      (.ok ((joinL b1 ++ (joinL dls ++ joinL b2)) ++
        (joinL a2 ++ ((joinL c1 ++ (joinL dls ++ joinL c2)) ++ joinL a3))), [A]) := by
    rw [processLines_cons_goOk root idx _ lB rB B (joinL b1 ++ (joinL dls ++ joinL b2))
      (a2 ++ lC :: a3) [A] [A] hlB hrB hBrun, hL2]
    rfl
  have hL0 : processLines root idx (processFile fs root idx (fuel + 2))
      (a1 ++ lB :: (a2 ++ lC :: a3)) [A] =
      (.ok (joinL a1 ++ ((joinL b1 ++ (joinL dls ++ joinL b2)) ++
        (joinL a2 ++ ((joinL c1 ++ (joinL dls ++ joinL c2)) ++ joinL a3)))), [A]) := by
    rw [processLines_append_ok root idx _ a1 (lB :: (a2 ++ lC :: a3)) [A] (joinL a1) [A]
      (processLines_plain root idx _ a1 hpa1 [A]), hL1]
    rfl
  rw [processFile_read_ok fs root idx (fuel + 2) A _ [] [A] _ (List.not_mem_nil A) hA hL0]
  rw [List.erase_cons_head]
  simp [sAppend_assoc]

/-- C2 witness: a concrete diamond `A → B, C`, `B → D`, `C → D`;
composing `A` succeeds and `D`'s content appears twice. -/
theorem claim_C2_diamond_reuse_witness :
    processFile
      [("A.tex", ["start\n", "!!!>include(b/B.tex)\n", "mid\n", "!!!>include(c/C.tex)\n",
        "end\n"]),
       ("b/B.tex", ["b1\n", "!!!>include(d/D.tex)\n", "b2\n"]),
       ("c/C.tex", ["c1\n", "!!!>include(d/D.tex)\n", "c2\n"]),
       ("d/D.tex", ["D content\n"])] "" none 3 "A.tex" [] =
      (.ok "start\nb1\nD content\nb2\nmid\nc1\nD content\nc2\nend\n", []) :=
  claim_C2_diamond_reuse
    [("A.tex", ["start\n", "!!!>include(b/B.tex)\n", "mid\n", "!!!>include(c/C.tex)\n",
      "end\n"]),
     ("b/B.tex", ["b1\n", "!!!>include(d/D.tex)\n", "b2\n"]),
     ("c/C.tex", ["c1\n", "!!!>include(d/D.tex)\n", "c2\n"]),
     ("d/D.tex", ["D content\n"])] "" none 0
    "A.tex" "b/B.tex" "c/C.tex" "d/D.tex"
    ["start\n"] ["mid\n"] ["end\n"] ["b1\n"] ["b2\n"] ["c1\n"] ["c2\n"] ["D content\n"]
    "!!!>include(b/B.tex)\n" "!!!>include(c/C.tex)\n"
    "!!!>include(d/D.tex)\n" "!!!>include(d/D.tex)\n"
    "b/B.tex" "c/C.tex" "d/D.tex" "d/D.tex"
    (by decide) (by decide) (by decide) (by decide) (by decide)
    (by decide) (by decide) (by decide) (by decide)
    (by decide) (by decide) (by decide)
    (by decide) (by decide) (by decide) (by decide) (by decide)
    (by decide) (by decide) (by decide) (by decide)
    (by decide) (by decide) (by decide) (by decide)

/-- C3 counterexample: a self-including file; `process_file` aborts with
the circular-include error, and the starting path is still in the chain
set when the call finishes — the claim's "p has been removed from the
chain set" fails on the error path, because the `discard` is not in a
`finally` block. -/
theorem claim_C3_chain_removal_counterexample :
    processFile [("x.tex", ["!!!>include(x.tex)"])] "" none 2 "x.tex" [] =
      (.error (.circular "x.tex"), ["x.tex"]) ∧
    "x.tex" ∈ (processFile [("x.tex", ["!!!>include(x.tex)"])] "" none 2 "x.tex" []).2 :=
  ⟨by decide, by decide⟩

/-- C3 (amended): for every call to `process_file` on a path `p` with a
chain set not containing `p`, if the call returns successfully then `p`
has been removed and the chain set is exactly as it was on entry; if the
call aborts with an error (circular include, resolution failure, or read
failure anywhere in the subtree) then `p` is still in the chain set —
the removal happens only on the successful path. -/
theorem claim_C3_chain_removal_amended
    (fs : List (String × List String)) (root : String)
    (idx : Option (List (String × String)))
    (fuel : Nat) (p : String) (chain : List String) (hp : p ∉ chain) :
    (∀ t c', processFile fs root idx (fuel + 1) p chain = (.ok t, c') → c' = chain) ∧
    (∀ e c', processFile fs root idx (fuel + 1) p chain = (.error e, c') → p ∈ c') := by
  constructor
  · exact fun t c' h => processFile_ok_chain fs root idx (fuel + 1) p chain t c' h
  · intro e c' h
    cases hr : readFile fs p with
    | none =>
      rw [processFile_noRead fs root idx fuel p chain hp hr] at h
      obtain ⟨h1, h2⟩ := (Prod.mk.injEq _ _ _ _).mp h
      rw [← h2]
      exact List.mem_cons_self _ _
    | some lines =>
      cases hl : processLines root idx (processFile fs root idx fuel) lines (p :: chain) with
      | mk res1 c1 =>
        cases res1 with
        | ok t1 =>
          rw [processFile_read_ok fs root idx fuel p t1 chain c1 lines hp hr hl] at h
          exact absurd ((Prod.mk.injEq _ _ _ _).mp h).1 (by simp)
        | error e1 =>
          rw [processFile_read_err fs root idx fuel p chain c1 lines e1 hp hr hl] at h
          obtain ⟨h1, h2⟩ := (Prod.mk.injEq _ _ _ _).mp h
          have hmem : p ∈ (processLines root idx (processFile fs root idx fuel)
              lines (p :: chain)).2 :=
            processLines_mem root idx _ p
              (fun q c hx => processFile_mem_chain fs root idx fuel q c p hx)
              lines (p :: chain) (List.mem_cons_self _ _)
          rw [hl] at hmem
          rw [← h2]
          exact hmem

/-- C3 amended-claim witness at a concrete self-including file. -/
theorem claim_C3_chain_removal_amended_witness :
    (∀ t c', processFile [("x.tex", ["!!!>include(x.tex)"])] "" none 2 "x.tex" [] =
      (.ok t, c') → c' = []) ∧
    (∀ e c', processFile [("x.tex", ["!!!>include(x.tex)"])] "" none 2 "x.tex" [] =
      (.error e, c') → "x.tex" ∈ c') :=
  claim_C3_chain_removal_amended [("x.tex", ["!!!>include(x.tex)"])] "" none 1 "x.tex" []
    (by decide)

/-! ### Association-list lookup facts -/

theorem lookup_none_iff {α β : Type} [BEq α] [LawfulBEq α] (k : α) :
    ∀ (l : List (α × β)), List.lookup k l = none ↔ k ∉ l.map Prod.fst := by
  intro l
  induction l with
  | nil => simp [List.lookup]
  | cons e t ih =>
    cases e with
    | mk a b =>
      by_cases hk : k = a
      · subst hk
        simp [List.lookup]
      · have hb : (k == a) = false := beq_false_of_ne hk
        simp [List.lookup, hb, hk, ih]

theorem lookup_mem {α β : Type} [BEq α] [LawfulBEq α] (k : α) (v : β) :
    ∀ (l : List (α × β)), List.lookup k l = some v → (k, v) ∈ l := by
  intro l
  induction l with
  | nil => intro h; simp [List.lookup] at h
  | cons e t ih =>
    cases e with
    | mk a b =>
      intro h
      by_cases hk : k = a
      · subst hk
        rw [List.lookup, beq_self_eq_true] at h
        have hv : b = v := by injection h
        exact hv ▸ List.mem_cons_self _ _
      · rw [List.lookup, beq_false_of_ne hk] at h
        exact List.mem_cons_of_mem _ (ih h)

theorem lookup_append {α β : Type} [BEq α] [LawfulBEq α] (k : α) :
    ∀ (l1 l2 : List (α × β)),
      List.lookup k (l1 ++ l2) =
        match List.lookup k l1 with
        | some v => some v
        | none => List.lookup k l2 := by
  intro l1 l2
  induction l1 with
  | nil => simp [List.lookup]
  | cons e t ih =>
    cases e with
    | mk a b =>
      by_cases hk : k = a
      · subst hk
        simp [List.lookup]
      · rw [List.cons_append, List.lookup, beq_false_of_ne hk, List.lookup,
          beq_false_of_ne hk, ih]

/-! ### File-index construction (C4) -/

/-- With pairwise-distinct filenames the index build succeeds and
collects exactly the walked pairs after the already-built part. -/
theorem buildIndexAux_ok :
    ∀ (pairs index : List (String × String)),
      (index.map Prod.fst ++ pairs.map Prod.fst).Nodup →
      buildIndexAux pairs index = .ok (index ++ pairs) := by
  intro pairs
  induction pairs with
  | nil =>
    intro index _
    rw [buildIndexAux, List.append_nil]
  | cons e rest ih =>
    intro index hnd
    cases e with
    | mk f path =>
      have hf : f ∉ index.map Prod.fst := by
        intro hin
        rw [List.map_cons] at hnd
        have hdisj := (List.nodup_append.mp hnd).2.2
        exact hdisj hin (List.mem_cons_self _ _)
      have hlk : List.lookup f index = none := (lookup_none_iff f index).mpr hf
      rw [buildIndexAux, hlk]
      rw [List.map_cons] at hnd
      have hnd2 : ((index ++ [(f, path)]).map Prod.fst ++ rest.map Prod.fst).Nodup := by
        simpa using hnd
      rw [ih (index ++ [(f, path)]) hnd2, List.append_assoc]
      rfl

/-- With a repeated filename the index build fails at the first
collision, naming the filename, the path already indexed and the newly
walked path; the two paths are distinct files whenever the walked full
paths are pairwise distinct. -/
theorem buildIndexAux_err :
    ∀ (pairs index : List (String × String)),
      (index.map Prod.fst).Nodup →
      ((index ++ pairs).map Prod.snd).Nodup →
      ¬ (index.map Prod.fst ++ pairs.map Prod.fst).Nodup →
      ∃ f p q, buildIndexAux pairs index = .error (.duplicateName f p q) ∧
        (f, p) ∈ index ++ pairs ∧ (f, q) ∈ pairs ∧ p ≠ q := by
  intro pairs
  induction pairs with
  | nil =>
    intro index hk _ hbad
    rw [List.map_nil, List.append_nil] at hbad
    exact absurd hk hbad
  | cons e rest ih =>
    intro index hk hsnd hbad
    cases e with
    | mk f path =>
      cases hlk : List.lookup f index with
      | some existing =>
        refine ⟨f, existing, path, ?_, ?_, List.mem_cons_self _ _, ?_⟩
        · rw [buildIndexAux, hlk]
        · exact List.mem_append_left _ (lookup_mem f existing index hlk)
        · intro hpq
          subst hpq
          have hmem : (f, existing) ∈ index := lookup_mem f existing index hlk
          have hsnd_mem : existing ∈ index.map Prod.snd :=
            List.mem_map.mpr ⟨(f, existing), hmem, rfl⟩
          rw [List.map_append] at hsnd
          have hdisj := (List.nodup_append.mp hsnd).2.2
          exact hdisj hsnd_mem (by simp)
      | none =>
        have hf : f ∉ index.map Prod.fst := (lookup_none_iff f index).mp hlk
        have hk2 : ((index ++ [(f, path)]).map Prod.fst).Nodup := by
          rw [List.map_append]
          rw [List.nodup_append]
          refine ⟨hk, by simp, ?_⟩
          intro a ha hb
          simp at hb
          subst hb
          exact hf ha
        have hsnd2 : (((index ++ [(f, path)]) ++ rest).map Prod.snd).Nodup := by
          rw [List.append_assoc]
          exact hsnd
        have hbad2 : ¬ ((index ++ [(f, path)]).map Prod.fst ++ rest.map Prod.fst).Nodup := by
          intro hnd
          exact hbad (by simpa using hnd)
        obtain ⟨f', p, q, herr, hp, hq, hpq⟩ := ih (index ++ [(f, path)]) hk2 hsnd2 hbad2
        refine ⟨f', p, q, ?_, ?_, List.mem_cons_of_mem _ hq, hpq⟩
        · rw [buildIndexAux, hlk]
          exact herr
        · rw [List.append_assoc] at hp
          exact hp

/-- C4: `build_file_index` fails with a duplicate-filename error naming
both offending absolute paths whenever two distinct files in the walked
tree share a bare filename; with all-distinct filenames it returns a
mapping with exactly one entry per walked file; and for a nonexistent
root — whose `os.walk` yields nothing, i.e. the empty walk — it returns
an empty index rather than an error. -/
theorem claim_C4_duplicate_filename_index :
    (buildFileIndex [] = .ok []) ∧
    (∀ walk : List (String × List String),
      ((walkPairs walk).map Prod.fst).Nodup →
      buildFileIndex walk = .ok (walkPairs walk)) ∧
    (∀ walk : List (String × List String),
      ((walkPairs walk).map Prod.snd).Nodup →
      ¬ ((walkPairs walk).map Prod.fst).Nodup →
      ∃ f p q, buildFileIndex walk = .error (.duplicateName f p q) ∧
        (f, p) ∈ walkPairs walk ∧ (f, q) ∈ walkPairs walk ∧ p ≠ q) := by
  refine ⟨rfl, ?_, ?_⟩
  · intro walk hnd
    have := buildIndexAux_ok (walkPairs walk) [] (by simpa using hnd)
    rw [buildFileIndex, this, List.nil_append]
  · intro walk hsnd hbad
    obtain ⟨f, p, q, herr, hp, hq, hpq⟩ :=
      buildIndexAux_err (walkPairs walk) [] (by simp) (by simpa using hsnd)
        (by simpa using hbad)
    exact ⟨f, p, q, herr, by simpa using hp, hq, hpq⟩

/-- C4 witness: two files named `f.tex` in different subdirectories make
the index build fail naming both paths; a tree with distinct filenames
builds the full index; the empty walk builds the empty index. -/
theorem claim_C4_duplicate_filename_index_witness :
    buildFileIndex [] = .ok [] ∧
    buildFileIndex [("r/a", ["f.tex", "g.tex"]), ("r/b", ["h.tex"])] =
      .ok [("f.tex", "r/a/f.tex"), ("g.tex", "r/a/g.tex"), ("h.tex", "r/b/h.tex")] ∧
    ∃ f p q,
      buildFileIndex [("r/a", ["f.tex"]), ("r/b", ["f.tex"])] =
        .error (.duplicateName f p q) ∧
      (f, p) ∈ walkPairs [("r/a", ["f.tex"]), ("r/b", ["f.tex"])] ∧
      (f, q) ∈ walkPairs [("r/a", ["f.tex"]), ("r/b", ["f.tex"])] ∧ p ≠ q :=
  ⟨claim_C4_duplicate_filename_index.1,
   by
     have := claim_C4_duplicate_filename_index.2.1
       [("r/a", ["f.tex", "g.tex"]), ("r/b", ["h.tex"])] (by decide)
     exact this.trans rfl,
   claim_C4_duplicate_filename_index.2.2 [("r/a", ["f.tex"]), ("r/b", ["f.tex"])]
     (by decide) (by decide)⟩

/-! ### Character-list facts for the chapter-number rules (C5) -/

theorem stripLit_append : ∀ (l xs : List Char), stripLit l (l ++ xs) = some xs := by
  intro l
  induction l with
  | nil => intro xs; rfl
  | cons c t ih => intro xs; simp [stripLit, ih]

theorem stripLit_eq_some : ∀ (l cs r : List Char), stripLit l cs = some r → cs = l ++ r := by
  intro l
  induction l with
  | nil =>
    intro cs r h
    rw [stripLit] at h
    have : cs = r := by injection h
    rw [this, List.nil_append]
  | cons c t ih =>
    intro cs r h
    cases cs with
    | nil => exact absurd h (by simp [stripLit])
    | cons c2 cs2 =>
      rw [stripLit] at h
      by_cases hc : c2 = c
      · rw [if_pos hc] at h
        rw [hc, List.cons_append, ih cs2 r h]
      · rw [if_neg hc] at h
        exact absurd h (by simp)

theorem takeWhile_app (p : Char → Bool) :
    ∀ (ds rest : List Char), (∀ c ∈ ds, p c = true) →
      (∀ c, rest.head? = some c → p c = false) →
      (ds ++ rest).takeWhile p = ds := by
  intro ds
  induction ds with
  | nil =>
    intro rest _ hr
    cases rest with
    | nil => rfl
    | cons c t =>
      rw [List.nil_append, List.takeWhile_cons, hr c rfl]
      simp
  | cons d ds ih =>
    intro rest hd hr
    rw [List.cons_append, List.takeWhile_cons, hd d (List.mem_cons_self _ _),
      ih rest (fun c hc => hd c (List.mem_cons_of_mem _ hc)) hr]
    simp

theorem drop_takeWhile_length (p : Char → Bool) :
    ∀ (cs : List Char), cs.drop (cs.takeWhile p).length = cs.dropWhile p := by
  intro cs
  induction cs with
  | nil => rfl
  | cons a t ih =>
    rw [List.takeWhile_cons, List.dropWhile_cons]
    cases hp : p a with
    | true => simpa using ih
    | false => simp

theorem takeWhile_mem_pred (p : Char → Bool) :
    ∀ (cs : List Char) (c : Char), c ∈ cs.takeWhile p → p c = true := by
  intro cs
  induction cs with
  | nil => intro c h; simp [List.takeWhile] at h
  | cons a t ih =>
    intro c h
    rw [List.takeWhile_cons] at h
    cases hp : p a with
    | false => rw [hp] at h; simp at h
    | true =>
      rw [hp] at h
      simp at h
      rcases h with h | h
      · exact h ▸ hp
      · exact ih c h

theorem head?_dropWhile (p : Char → Bool) :
    ∀ (cs : List Char) (c : Char), (cs.dropWhile p).head? = some c → p c = false := by
  intro cs
  induction cs with
  | nil => intro c h; simp [List.dropWhile] at h
  | cons a t ih =>
    intro c h
    rw [List.dropWhile_cons] at h
    cases hp : p a with
    | true => rw [hp] at h; simp at h; exact ih c h
    | false =>
      rw [hp] at h
      simp at h
      rw [← h]
      exact hp

/-- The `chap<digits>` rule matches exactly the names that decompose as
`chap`, a maximal nonempty digit run, and a rest not starting with a
digit; the extracted number is the value of that run. -/
theorem chapMatchL_some_of_decomp (ds rest : List Char)
    (hds : ds ≠ []) (hdig : ∀ c ∈ ds, c.isDigit = true)
    (hrest : ∀ c, rest.head? = some c → c.isDigit = false) :
    chapMatchL ("chap".data ++ ds ++ rest) = some (digitsToNat ds) := by
  rw [chapMatchL, List.append_assoc, stripLit_append]
  show (if ((ds ++ rest).takeWhile Char.isDigit) = [] then none
    else some (digitsToNat ((ds ++ rest).takeWhile Char.isDigit))) = some (digitsToNat ds)
  rw [takeWhile_app Char.isDigit ds rest hdig hrest, if_neg hds]

/-- Conversely, a `chap<digits>` match yields such a decomposition
(without the maximality condition, which is irrelevant to existence). -/
theorem chapMatchL_decomp_of_some (cs : List Char) (n : Nat)
    (h : chapMatchL cs = some n) :
    ∃ ds rest, cs = "chap".data ++ ds ++ rest ∧ ds ≠ [] ∧ ∀ c ∈ ds, c.isDigit = true := by
  rw [chapMatchL] at h
  cases hs : stripLit "chap".data cs with
  | none => rw [hs] at h; exact absurd h (by simp)
  | some rest0 =>
    rw [hs] at h
    have h2 : (if (rest0.takeWhile Char.isDigit) = [] then none
        else some (digitsToNat (rest0.takeWhile Char.isDigit))) = some n := h
    by_cases hds : rest0.takeWhile Char.isDigit = []
    · rw [if_pos hds] at h2; exact absurd h2 (by simp)
    · refine ⟨rest0.takeWhile Char.isDigit, rest0.dropWhile Char.isDigit, ?_, hds, ?_⟩
      · rw [stripLit_eq_some "chap".data cs rest0 hs, List.append_assoc,
          List.takeWhile_append_dropWhile]
      · exact fun c hc => takeWhile_mem_pred Char.isDigit rest0 c hc

/-- The `<digits>_` rule matches exactly the basenames that decompose as
a nonempty digit run directly followed by an underscore. -/
theorem numPrefixMatchL_some_of_decomp (ds rest : List Char)
    (hds : ds ≠ []) (hdig : ∀ c ∈ ds, c.isDigit = true) :
    numPrefixMatchL (ds ++ '_' :: rest) = some (digitsToNat ds) := by
  have htw : (ds ++ '_' :: rest).takeWhile Char.isDigit = ds := by
    refine takeWhile_app Char.isDigit ds ('_' :: rest) hdig ?_
    intro c hc
    have h2 : '_' = c := by injection hc
    rw [← h2]
    decide
  rw [numPrefixMatchL, htw, if_neg hds, List.drop_left]
  simp

theorem numPrefixMatchL_decomp_of_some (cs : List Char) (n : Nat)
    (h : numPrefixMatchL cs = some n) :
    ∃ ds rest, cs = ds ++ '_' :: rest ∧ ds ≠ [] ∧ ∀ c ∈ ds, c.isDigit = true := by
  rw [numPrefixMatchL] at h
  by_cases hds : cs.takeWhile Char.isDigit = []
  · rw [if_pos hds] at h; exact absurd h (by simp)
  · have hsplit : cs = cs.takeWhile Char.isDigit ++ cs.dropWhile Char.isDigit :=
      (List.takeWhile_append_dropWhile Char.isDigit cs).symm
    rw [if_neg hds] at h
    by_cases hu : (cs.drop (cs.takeWhile Char.isDigit).length).head? = some '_'
    · rw [drop_takeWhile_length Char.isDigit cs] at hu
      cases hd : cs.dropWhile Char.isDigit with
      | nil => rw [hd] at hu; exact absurd hu (by simp)
      | cons c2 t =>
        rw [hd] at hu
        have hc2 : c2 = '_' := by injection hu
        refine ⟨cs.takeWhile Char.isDigit, t, ?_, hds, ?_⟩
        · rw [← hc2, ← hd]
          exact hsplit
        · exact fun c3 hc3 => takeWhile_mem_pred Char.isDigit cs c3 hc3
    · rw [if_neg hu] at h
      exact absurd h (by simp)

/-- A name whose first character is not `c` cannot decompose along the
`chap<digits>` rule. -/
theorem no_chap_decomp (name : String) (hh : name.data.head? ≠ some 'c') :
    ¬ ∃ ds rest, name.data = "chap".data ++ ds ++ rest ∧ ds ≠ [] ∧
      ∀ c ∈ ds, c.isDigit = true := by
  intro hex
  obtain ⟨ds, rest, hdec, _, _⟩ := hex
  apply hh
  rw [hdec]
  rfl

/-- A character list whose first character is not a digit cannot
decompose along the `<digits>_` rule. -/
theorem no_numPrefix_decomp (cs : List Char)
    (hh : cs.head?.map Char.isDigit ≠ some true) :
    ¬ ∃ ds rest, cs = ds ++ '_' :: rest ∧ ds ≠ [] ∧ ∀ c ∈ ds, c.isDigit = true := by
  intro hex
  obtain ⟨ds, rest, hdec, hds, hdig⟩ := hex
  cases ds with
  | nil => exact hds rfl
  | cons d ds2 =>
    apply hh
    have hq : cs.head? = some d := by rw [hdec]; rfl
    rw [hq]
    show some d.isDigit = some true
    rw [hdig d (List.mem_cons_self _ _)]

/-- C5: `extract_chapter_number` applies the two derivation rules in
priority order.  For every target name of the form `chap` + digits
(+ rest not starting with a digit), the result is that digit group,
regardless of the component filename; otherwise, if the component's
basename starts with digits followed by `_`, the result is that digit
group; otherwise the result is `none`, and consequently the numbering
preamble built for the target is empty. -/
theorem claim_C5_chapter_number_rules (targetName targetComponent : String) :
    (∀ ds rest, targetName.data = "chap".data ++ ds ++ rest → ds ≠ [] →
      (∀ c ∈ ds, c.isDigit = true) → (∀ c, rest.head? = some c → c.isDigit = false) →
      extractChapterNumber targetName targetComponent = some (digitsToNat ds)) ∧
    ((¬ ∃ ds rest, targetName.data = "chap".data ++ ds ++ rest ∧ ds ≠ [] ∧
        ∀ c ∈ ds, c.isDigit = true) →
      ∀ ds rest, basenameL targetComponent.data = ds ++ '_' :: rest → ds ≠ [] →
        (∀ c ∈ ds, c.isDigit = true) →
        extractChapterNumber targetName targetComponent = some (digitsToNat ds)) ∧
    ((¬ ∃ ds rest, targetName.data = "chap".data ++ ds ++ rest ∧ ds ≠ [] ∧
        ∀ c ∈ ds, c.isDigit = true) →
      (¬ ∃ ds rest, basenameL targetComponent.data = ds ++ '_' :: rest ∧ ds ≠ [] ∧
        ∀ c ∈ ds, c.isDigit = true) →
      extractChapterNumber targetName targetComponent = none ∧
      ∀ pages, buildTargetPreamble targetName targetComponent pages = "") := by
  have hchapnone : (¬ ∃ ds rest, targetName.data = "chap".data ++ ds ++ rest ∧ ds ≠ [] ∧
      ∀ c ∈ ds, c.isDigit = true) → chapMatchL targetName.data = none := by
    intro hno
    cases hm : chapMatchL targetName.data with
    | none => rfl
    | some n =>
      obtain ⟨ds, rest, hdec, hds, hdig⟩ := chapMatchL_decomp_of_some _ n hm
      exact absurd ⟨ds, rest, hdec, hds, hdig⟩ hno
  refine ⟨?_, ?_, ?_⟩
  · intro ds rest hdec hds hdig hrest
    rw [extractChapterNumber, hdec, chapMatchL_some_of_decomp ds rest hds hdig hrest]
  · intro hno ds rest hdec hds hdig
    rw [extractChapterNumber, hchapnone hno, hdec,
      numPrefixMatchL_some_of_decomp ds rest hds hdig]
  · intro hno1 hno2
    have hnum : numPrefixMatchL (basenameL targetComponent.data) = none := by
      cases hm : numPrefixMatchL (basenameL targetComponent.data) with
      | none => rfl
      | some n =>
        obtain ⟨ds, rest, hdec, hds, hdig⟩ := numPrefixMatchL_decomp_of_some _ n hm
        exact absurd ⟨ds, rest, hdec, hds, hdig⟩ hno2
    have hmain : extractChapterNumber targetName targetComponent = none := by
      rw [extractChapterNumber, hchapnone hno1, hnum]
    refine ⟨hmain, fun pages => ?_⟩
    rw [buildTargetPreamble, hmain]

/-- C5 witness: `chap5`/`x.tex` gives 5 by rule 1; `introX`/`7_intro.tex`
gives 7 by rule 2; `introX`/`intro.tex` gives no number and an empty
preamble. -/
theorem claim_C5_chapter_number_rules_witness :
    extractChapterNumber "chap5" "x.tex" = some 5 ∧
    extractChapterNumber "introX" "7_intro.tex" = some 7 ∧
    (extractChapterNumber "introX" "intro.tex" = none ∧
      ∀ pages, buildTargetPreamble "introX" "intro.tex" pages = "") := by
  refine ⟨?_, ?_, ?_⟩
  · have := (claim_C5_chapter_number_rules "chap5" "x.tex").1 ['5'] []
      (by decide) (by decide) (by decide) (by decide)
    simpa using this
  · have := (claim_C5_chapter_number_rules "introX" "7_intro.tex").2.1
      (no_chap_decomp "introX" (by decide)) ['7'] "intro.tex".data
      (by decide) (by decide) (by decide)
    simpa using this
  · exact (claim_C5_chapter_number_rules "introX" "intro.tex").2.2
      (no_chap_decomp "introX" (by decide))
      (no_numPrefix_decomp (basenameL "intro.tex".data) (by decide))

/-! ### Chapter-page map facts (C6) -/

theorem lookup_mapReplace_ne (k c : Nat) (v : Nat) (hck : c ≠ k) :
    ∀ (d : List (Nat × Nat)),
      List.lookup c (d.map (fun e => if e.1 = k then (k, v) else e)) = List.lookup c d := by
  intro d
  induction d with
  | nil => rfl
  | cons e t ih =>
    cases e with
    | mk a b =>
      by_cases ha : a = k
      · subst ha
        rw [List.map_cons, if_pos rfl]
        rw [List.lookup, List.lookup, beq_false_of_ne hck]
        exact ih
      · rw [List.map_cons, if_neg ha]
        by_cases hca : c = a
        · subst hca
          rw [List.lookup, List.lookup, beq_self_eq_true]
        · rw [List.lookup, List.lookup, beq_false_of_ne hca]
          exact ih

theorem lookup_mapReplace_eq (k v : Nat) :
    ∀ (d : List (Nat × Nat)), (List.lookup k d).isSome = true →
      List.lookup k (d.map (fun e => if e.1 = k then (k, v) else e)) = some v := by
  intro d
  induction d with
  | nil => intro h; simp [List.lookup] at h
  | cons e t ih =>
    cases e with
    | mk a b =>
      intro h
      by_cases ha : a = k
      · subst ha
        rw [List.map_cons, if_pos rfl, List.lookup, beq_self_eq_true]
      · rw [List.map_cons, if_neg ha, List.lookup, beq_false_of_ne (fun hh => ha hh.symm)]
        rw [List.lookup, beq_false_of_ne (fun hh => ha hh.symm)] at h
        exact ih h

/-- Python `d[k] = v` seen through lookup: the inserted key now maps to
`v`, any other key is untouched. -/
theorem lookup_dictInsert (k v c : Nat) (d : List (Nat × Nat)) :
    List.lookup c (dictInsert k v d) =
      if c = k then some v else List.lookup c d := by
  rw [dictInsert]
  by_cases hs : (List.lookup k d).isSome = true
  · rw [if_pos hs]
    by_cases hck : c = k
    · subst hck
      rw [if_pos rfl]
      exact lookup_mapReplace_eq c v d hs
    · rw [if_neg hck]
      exact lookup_mapReplace_ne k c v hck d
  · rw [if_neg hs]
    have hnone : List.lookup k d = none := by
      cases hlk : List.lookup k d with
      | none => rfl
      | some w => rw [hlk] at hs; simp at hs
    rw [lookup_append]
    by_cases hck : c = k
    · subst hck
      rw [hnone, if_pos rfl]
      rw [List.lookup, beq_self_eq_true]
    · rw [if_neg hck]
      cases hlk : List.lookup c d with
      | some w => rfl
      | none =>
        rw [List.lookup, beq_false_of_ne hck]
        rfl

theorem getLast?_none {α : Type} : ∀ (l : List α), l.getLast? = none → l = [] := by
  intro l
  cases l with
  | nil => intro _; rfl
  | cons a t =>
    intro h
    exact absurd h (by simp [List.getLast?_cons])

theorem getLast?_cons_of_ne_nil {α : Type} (a : α) :
    ∀ (l : List α), l ≠ [] → (a :: l).getLast? = l.getLast? := by
  intro l
  cases l with
  | nil => intro h; exact absurd rfl h
  | cons b t => intro _; exact List.getLast?_cons_cons

/-- The lookup of the map built by the aux-file scan equals the page of
the last matching occurrence of the chapter, in file order. -/
theorem pagesFold_lookup :
    ∀ (lines : List String) (d : List (Nat × Nat)) (c : Nat),
      List.lookup c (List.foldl pageStep d lines) =
        match ((lines.filterMap auxLineMatch).filter (fun m => m.1 == c)).getLast? with
        | some m => some m.2
        | none => List.lookup c d := by
  intro lines
  induction lines with
  | nil => intro d c; rfl
  | cons line rest ih =>
    intro d c
    rw [List.foldl_cons]
    cases hm : auxLineMatch line with
    | none =>
      have hstep : pageStep d line = d := by rw [pageStep, hm]
      rw [hstep, ih d c, List.filterMap_cons, hm]
    | some m =>
      have hstep : pageStep d line = dictInsert m.1 m.2 d := by rw [pageStep, hm]
      rw [hstep, ih (dictInsert m.1 m.2 d) c, List.filterMap_cons, hm]
      cases hF : ((rest.filterMap auxLineMatch).filter (fun x => x.1 == c)).getLast? with
      | some last =>
        rw [List.filter_cons]
        by_cases pm : (m.1 == c) = true
        · rw [if_pos pm]
          have hne : (rest.filterMap auxLineMatch).filter (fun x => x.1 == c) ≠ [] := by
            intro hnil
            rw [hnil] at hF
            exact absurd hF (by simp)
          rw [getLast?_cons_of_ne_nil m _ hne, hF]
        · rw [if_neg pm, hF]
      | none =>
        have hFnil : (rest.filterMap auxLineMatch).filter (fun x => x.1 == c) = [] :=
          getLast?_none _ hF
        rw [List.filter_cons, hFnil]
        by_cases pm : (m.1 == c) = true
        · rw [if_pos pm]
          have hcm : c = m.1 := (Nat.beq_eq_true_eq m.1 c).mp pm |>.symm
          rw [lookup_dictInsert m.1 m.2 c d, if_pos hcm]
          rfl
        · rw [if_neg pm]
          have hcm : c ≠ m.1 := fun hh => pm ((Nat.beq_eq_true_eq m.1 c).mpr hh.symm)
          rw [lookup_dictInsert m.1 m.2 c d, if_neg hcm]
          rfl

/-- C6: `extract_chapter_pages` returns an empty mapping when the
auxiliary file is absent (not an error); otherwise, for every chapter
number, the mapping holds the page number of the **last** matching
`\contentsline` chapter line in file order (overwrite-in-place), and
lines that do not match the pattern are ignored. -/
theorem claim_C6_chapter_pages_last_wins :
    extractChapterPages none = [] ∧
    ∀ (lines : List String) (c : Nat),
      List.lookup c (extractChapterPages (some lines)) =
        match ((lines.filterMap auxLineMatch).filter (fun m => m.1 == c)).getLast? with
        | some m => some m.2
        | none => none := by
  refine ⟨rfl, ?_⟩
  intro lines c
  have h := pagesFold_lookup lines [] c
  show List.lookup c (List.foldl pageStep [] lines) = _
  rw [h]
  cases h2 : ((lines.filterMap auxLineMatch).filter (fun m => m.1 == c)).getLast? with
  | some last => rfl
  | none => rfl

/-- C7: for every target whose chapter number `n` is derivable, the
numbering preamble consists of a chapter-counter-set directive to `n-1`,
followed by a page-counter-set directive to the starting page exactly
when the chapter-to-page map has an entry for `n`. -/
theorem claim_C7_numbering_preamble (targetName targetComponent : String)
    (pages : List (Nat × Nat)) (n : Nat)
    (hn : extractChapterNumber targetName targetComponent = some n) :
    buildTargetPreamble targetName targetComponent pages =
      "\\setcounter\x7bchapter\x7d\x7b" ++ toString ((n : Int) - 1) ++ "\x7d\n" ++
      (match List.lookup n pages with
       | some page => "\\setcounter\x7bpage\x7d\x7b" ++ toString page ++ "\x7d\n"
       | none => "") := by
  simp only [buildTargetPreamble, hn]
  cases hl : List.lookup n pages with
  | some page =>
    simp only [hl]
    simp only [String.intercalate, String.intercalate.go]
    simp [sAppend_assoc]
  | none =>
    simp only [hl]
    simp only [String.intercalate, String.intercalate.go]
    simp [sAppend_assoc, sAppend_empty]

/-- C7 witness: with an aux file giving chapters 1 and 2 starting pages
1 and 15, the preamble for target `chap2` sets the chapter counter to 1
and the page counter to 15. -/
theorem claim_C7_numbering_preamble_witness :
    extractChapterNumber "chap2" "x.tex" = some 2 ∧
    List.lookup 2 (extractChapterPages (some
      ["\\contentsline \x7bchapter\x7d\x7b\\numberline \x7b1\x7dIntro\x7d\x7b1\x7d",
       "\\contentsline \x7bchapter\x7d\x7b\\numberline \x7b2\x7dNext\x7d\x7b15\x7d"])) =
      some 15 ∧
    buildTargetPreamble "chap2" "x.tex" (extractChapterPages (some
      ["\\contentsline \x7bchapter\x7d\x7b\\numberline \x7b1\x7dIntro\x7d\x7b1\x7d",
       "\\contentsline \x7bchapter\x7d\x7b\\numberline \x7b2\x7dNext\x7d\x7b15\x7d"])) =
      "\\setcounter\x7bchapter\x7d\x7b1\x7d\n\\setcounter\x7bpage\x7d\x7b15\x7d\n" :=
  ⟨by decide, by decide,
   (claim_C7_numbering_preamble "chap2" "x.tex" (extractChapterPages (some
      ["\\contentsline \x7bchapter\x7d\x7b\\numberline \x7b1\x7dIntro\x7d\x7b1\x7d",
       "\\contentsline \x7bchapter\x7d\x7b\\numberline \x7b2\x7dNext\x7d\x7b15\x7d"])) 2
      (by decide)).trans (by decide)⟩

/-- C8: the build driver reports success from artifact presence, not
exit status: PDF present and exit 0 is plain success; PDF present and
non-zero exit is "successful (with warnings)", not failure; no PDF is
failure; and the returned success value equals PDF presence in every
case. -/
theorem claim_C8_artifact_primacy :
    (∀ rc : Int, composeOutcome true rc =
      ((if rc = 0 then "Compose successful."
        else "Compose successful (with warnings). Run with --show-log to see details."),
       true)) ∧
    (∀ rc : Int, composeOutcome false rc =
      ("Compose failed. Run with --show-log to see full output.", false)) ∧
    (∀ (pdf : Bool) (rc : Int), (composeOutcome pdf rc).2 = pdf) := by
  refine ⟨?_, ?_, ?_⟩
  · intro rc
    by_cases h : rc = 0
    · simp [composeOutcome, h]
    · simp [composeOutcome, h]
  · intro rc
    simp [composeOutcome]
  · intro pdf rc
    rfl

/-- C9: when the file index maps the bare filename to the same path the
explicit relative reference resolves to, the two directive forms resolve
to the same file, and composing a file holding the bare-reference
directive yields the same output as composing one holding the
path-reference directive, whenever either composition succeeds. -/
theorem claim_C9_bare_path_equivalence
    (fs : List (String × List String)) (root : String) (ix : List (String × String))
    (bare pathref p1 p2 l1 l2 : String)
    (hb : '/' ∉ bare.data) (hpth : '/' ∈ pathref.data)
    (hlook : List.lookup bare ix = some (pjoin root pathref))
    (h1 : readFile fs p1 = some [l1]) (h2 : readFile fs p2 = some [l2])
    (hd1 : parseDirective l1 = some bare) (hd2 : parseDirective l2 = some pathref) :
    (resolveInclude root (some ix) bare = .ok (pjoin root pathref) ∧
     resolveInclude root (some ix) pathref = .ok (pjoin root pathref)) ∧
    ∀ (fuel : Nat) (t1 t2 : String),
      (processFile fs root (some ix) fuel p1 []).1 = .ok t1 →
      (processFile fs root (some ix) fuel p2 []).1 = .ok t2 → t1 = t2 := by
  have hr1 : resolveInclude root (some ix) bare = .ok (pjoin root pathref) := by
    simp [resolveInclude, hb, hlook]
  have hr2 : resolveInclude root (some ix) pathref = .ok (pjoin root pathref) := by
    simp [resolveInclude, hpth]
  refine ⟨⟨hr1, hr2⟩, ?_⟩
  intro fuel t1 t2 hp1 hp2
  cases fuel with
  | zero =>
    rw [processFile_zero] at hp1
    exact absurd hp1 (by simp)
  | succ f =>
    have key : ∀ (p l ref t : String), readFile fs p = some [l] →
        parseDirective l = some ref →
        resolveInclude root (some ix) ref = .ok (pjoin root pathref) →
        (processFile fs root (some ix) (f + 1) p []).1 = .ok t →
        (processFile fs root (some ix) f (pjoin root pathref) []).1 = .ok t := by
      intro p l ref t hread hdl hres hp
      cases hg : processFile fs root (some ix) f (pjoin root pathref) [p] with
      | mk resg cg =>
        cases resg with
        | error e =>
          have hlines := processLines_cons_goErr root (some ix)
            (processFile fs root (some ix) f) l ref (pjoin root pathref) [] [p] cg e
            hdl hres hg
          rw [processFile_read_err fs root (some ix) f p [] cg [l] e
            (List.not_mem_nil p) hread hlines] at hp
          exact absurd hp (by simp)
        | ok tg =>
          have hcg : cg = [p] :=
            processFile_ok_chain fs root (some ix) f (pjoin root pathref) [p] tg cg hg
          subst hcg
          have hlines := processLines_cons_goOk root (some ix)
            (processFile fs root (some ix) f) l ref (pjoin root pathref) tg [] [p] [p]
            hdl hres hg
          have hlines2 : processLines root (some ix) (processFile fs root (some ix) f)
              [l] [p] = (.ok (tg ++ ""), [p]) := by
            rw [hlines]
            rfl
          rw [processFile_read_ok fs root (some ix) f p (tg ++ "") [] [p] [l]
            (List.not_mem_nil p) hread hlines2] at hp
          have ht : tg ++ "" = t := by injection hp
          have ht2 : t = tg := ht.symm.trans (sAppend_empty tg)
          have hshr := processFile_shrink fs root (some ix) f (pjoin root pathref) [p] []
            (fun x hx => absurd hx (List.not_mem_nil x)) tg (by rw [hg])
          rw [ht2]
          exact hshr
    have hT1 := key p1 l1 bare t1 h1 hd1 hr1 hp1
    have hT2 := key p2 l2 pathref t2 h2 hd2 hr2 hp2
    have := hT1.symm.trans hT2
    injection this

/-- C9 witness: a project with `foo.tex` at `r/sub/foo.tex`; the bare
and path include forms resolve to the same file and the two one-line
parents compose to the same output. -/
theorem claim_C9_bare_path_equivalence_witness :
    (resolveInclude "r" (some [("foo.tex", "r/sub/foo.tex")]) "foo.tex" =
      .ok (pjoin "r" "sub/foo.tex") ∧
     resolveInclude "r" (some [("foo.tex", "r/sub/foo.tex")]) "sub/foo.tex" =
      .ok (pjoin "r" "sub/foo.tex")) ∧
    ∀ (fuel : Nat) (t1 t2 : String),
      (processFile
        [("p1", ["!!!>include(foo.tex)"]), ("p2", ["!!!>include(sub/foo.tex)"]),
         ("r/sub/foo.tex", ["CONTENT\n"])] "r" (some [("foo.tex", "r/sub/foo.tex")])
        fuel "p1" []).1 = .ok t1 →
      (processFile
        [("p1", ["!!!>include(foo.tex)"]), ("p2", ["!!!>include(sub/foo.tex)"]),
         ("r/sub/foo.tex", ["CONTENT\n"])] "r" (some [("foo.tex", "r/sub/foo.tex")])
        fuel "p2" []).1 = .ok t2 → t1 = t2 :=
  claim_C9_bare_path_equivalence
    [("p1", ["!!!>include(foo.tex)"]), ("p2", ["!!!>include(sub/foo.tex)"]),
     ("r/sub/foo.tex", ["CONTENT\n"])] "r" [("foo.tex", "r/sub/foo.tex")]
    "foo.tex" "sub/foo.tex" "p1" "p2" "!!!>include(foo.tex)" "!!!>include(sub/foo.tex)"
    (by decide) (by decide) (by decide) (by decide) (by decide) (by decide) (by decide)

/-! ### Wrapper composition (C10) -/

section WrapperLemmas

variable (fs : List (String × List String)) (root : String)
variable (idx : Option (List (String × String)))
variable (fuel : Nat) (tc tp : String)

theorem walkTargetLines_cons_plain (line : String) (rest : List String)
    (chain : List String)
    (h1 : rstrip line ≠ "!!!>include_target")
    (h2 : rstrip line ≠ "!!!>target_preamble")
    (h3 : parseDirective line = none) :
    walkTargetLines fs root idx fuel tc tp (line :: rest) chain =
      ((walkTargetLines fs root idx fuel tc tp rest chain).1.map (fun t => line ++ t),
       (walkTargetLines fs root idx fuel tc tp rest chain).2) := by
  simp [walkTargetLines, h1, h2, h3]

theorem walkTargetLines_cons_target (line : String) (rest : List String)
    (chain : List String)
    (h : rstrip line = "!!!>include_target") :
    walkTargetLines fs root idx fuel tc tp (line :: rest) chain =
      ((walkTargetLines fs root idx fuel tc tp rest chain).1.map (fun t =>
        tc ++ (if tc.data.getLast? = some '\n' then "" else "\n") ++ t),
       (walkTargetLines fs root idx fuel tc tp rest chain).2) := by
  simp [walkTargetLines, h]

theorem walkTargetLines_plain :
    ∀ (ls : List String), PlainWrapperLines ls →
      ∀ chain, walkTargetLines fs root idx fuel tc tp ls chain = (.ok (joinL ls), chain) := by
  intro ls
  induction ls with
  | nil => intro _ chain; rfl
  | cons line rest ih =>
    intro hpl chain
    obtain ⟨h1, h2, h3⟩ := hpl line (List.mem_cons_self _ _)
    rw [walkTargetLines_cons_plain fs root idx fuel tc tp line rest chain h1 h2 h3,
      ih (fun l hl => hpl l (List.mem_cons_of_mem _ hl)) chain]
    rfl

theorem walkTargetLines_plain_append :
    ∀ (pre : List String), PlainWrapperLines pre →
      ∀ (rest chain : List String),
        walkTargetLines fs root idx fuel tc tp (pre ++ rest) chain =
          ((walkTargetLines fs root idx fuel tc tp rest chain).1.map
            (fun t => joinL pre ++ t),
           (walkTargetLines fs root idx fuel tc tp rest chain).2) := by
  intro pre
  induction pre with
  | nil =>
    intro _ rest chain
    rw [List.nil_append]
    cases hy : walkTargetLines fs root idx fuel tc tp rest chain with
    | mk res c =>
      cases res with
      | error e => rfl
      | ok t => simp [exceptMap_ok, sEmpty_append, joinL]
  | cons line pre2 ih =>
    intro hpl rest chain
    obtain ⟨h1, h2, h3⟩ := hpl line (List.mem_cons_self _ _)
    rw [List.cons_append,
      walkTargetLines_cons_plain fs root idx fuel tc tp line (pre2 ++ rest) chain h1 h2 h3,
      ih (fun l hl => hpl l (List.mem_cons_of_mem _ hl)) rest chain]
    cases hy : walkTargetLines fs root idx fuel tc tp rest chain with
    | mk res c =>
      cases res with
      | error e => rfl
      | ok t => simp [exceptMap_ok, sAppend_assoc, joinL]

theorem processFileWithTarget_read_ok (p t : String) (chain c' : List String)
    (lines : List String)
    (hP : p ∉ chain) (hread : readFile fs p = some lines)
    (h3 : walkTargetLines fs root idx fuel tc tp lines (p :: chain) = (.ok t, c')) :
    processFileWithTarget fs root idx fuel p tc tp chain = (.ok t, c'.erase p) := by
  simp [processFileWithTarget, hP, hread, h3]

end WrapperLemmas

/-- C10: the already-expanded target body substituted for the
`!!!>include_target` sentinel is spliced into the wrapper output
verbatim as a single block, with a trailing newline enforced when it is
missing, and is never rescanned: the equation holds for every body text
`tc`, including texts whose lines look like include directives or
sentinel lines, which therefore appear unchanged in the output. -/
theorem claim_C10_target_spliced_verbatim
    (fs : List (String × List String)) (root : String)
    (idx : Option (List (String × String))) (fuel : Nat)
    (wp tc tp tline : String) (pre post : List String)
    (hread : readFile fs wp = some (pre ++ tline :: post))
    (htl : rstrip tline = "!!!>include_target")
    (hpre : PlainWrapperLines pre) (hpost : PlainWrapperLines post) :
    processFileWithTarget fs root idx fuel wp tc tp [] =
      (.ok (joinL pre ++ (tc ++ (if tc.data.getLast? = some '\n' then "" else "\n") ++
        joinL post)), []) := by
  have hpost2 := walkTargetLines_plain fs root idx fuel tc tp post hpost [wp]
  have hsent : walkTargetLines fs root idx fuel tc tp (tline :: post) [wp] =
      (.ok (tc ++ (if tc.data.getLast? = some '\n' then "" else "\n") ++ joinL post),
       [wp]) := by
    rw [walkTargetLines_cons_target fs root idx fuel tc tp tline post [wp] htl, hpost2]
    rfl
  have hall : walkTargetLines fs root idx fuel tc tp (pre ++ tline :: post) [wp] =
      (.ok (joinL pre ++ (tc ++ (if tc.data.getLast? = some '\n' then "" else "\n") ++
        joinL post)), [wp]) := by
    rw [walkTargetLines_plain_append fs root idx fuel tc tp pre hpre (tline :: post) [wp],
      hsent]
    rfl
  rw [processFileWithTarget_read_ok fs root idx fuel tc tp wp _ [] [wp] _
    (List.not_mem_nil wp) hread hall, List.erase_cons_head]

/-- C10 witness: a body whose text contains an include-directive line
and a sentinel-looking line is spliced unchanged (with the enforced
trailing newline) and not expanded again. -/
theorem claim_C10_target_spliced_verbatim_witness :
    processFileWithTarget [("w", ["pre\n", "!!!>include_target\n", "post\n"])] "" none
      1 "w" "!!!>include(a.tex)\n!!!>include_target" "" [] =
      (.ok "pre\n!!!>include(a.tex)\n!!!>include_target\npost\n", []) :=
  (claim_C10_target_spliced_verbatim [("w", ["pre\n", "!!!>include_target\n", "post\n"])]
    "" none 1 "w" "!!!>include(a.tex)\n!!!>include_target" "" "!!!>include_target\n"
    ["pre\n"] ["post\n"] (by decide) (by decide) (by decide) (by decide)).trans rfl

end Shalev
